import Mathlib

/-!
# Huffman coder of `course_work.cpp`

A shallow embedding of the five stages of `src/course_work.cpp`
(frequency count, priority-queue merge loop, `generateCodes`, `encode`,
`decode`) together with the properties of the specification that were
checked against it.

Modelling conventions.

* `std::string` is a `List Char`; a bit-string is a list of the characters
  `'0'` and `'1'`.
* `std::shared_ptr<HuffmanNode>` is the type `HuffmanNode`, whose constructor
  `null` is the null pointer.
* `std::unordered_map<char, T>` is an association list with distinct keys
  (`mapFind` is `at`/lookup, `mapSet` is `m[k] = v`).  Its iteration order is
  unspecified, so every statement about a run quantifies over an arbitrary
  permutation `tbl` of the counted table.
* `std::priority_queue<..., Compare>` is a list of nodes.  `top()` returns an
  element that `Compare` places before no other element; which of several
  such elements is returned is decided by an arbitrary parameter
  `pick : TieBreak`, so a statement for all `pick` covers every tie order.
* `int` frequencies are integers kept in 32 bits: the result of every
  increment and addition of the source goes through `wrap32`.  Signed
  overflow is undefined in C++; the model takes the two's-complement
  wrap-around that the compiled program performs.
* Executions that C++ leaves undefined or ends by an exception are results
  `Except.error` carrying a `Fault`.
-/

namespace Huffman

/-- Ways a run of the program can go wrong. -/
inductive Fault where
  /-- Call of `heap.top()` on an empty priority queue (undefined behaviour). -/
  | emptyTop
  /-- Member access through a null `shared_ptr` (undefined behaviour). -/
  | nullDeref
  /-- The exception `std::out_of_range` thrown by `codes.at(ch)`. -/
  | outOfRange
  /-- The model's loop bound was used up; never happens for `buildTree`. -/
  | fuel
deriving DecidableEq, Repr

deriving instance DecidableEq for Except

/-- The value a 32-bit `int` holds for the arithmetic result `x`: the number
congruent to `x` modulo `2^32` that lies in the range from `-2^31` up to
`2^31 - 1`. -/
def wrap32 (x : Int) : Int := (x + 2147483648) % 4294967296 - 2147483648

/-- A `std::shared_ptr<HuffmanNode>`: null, or a node with a symbol, a
frequency and two child pointers. -/
inductive HuffmanNode where
  | null : HuffmanNode
  | node (ch : Char) (freq : Int) (left right : HuffmanNode) : HuffmanNode
deriving DecidableEq, Repr

/-- The field `freq` read through the pointer (the queue never holds null). -/
def HuffmanNode.freq : HuffmanNode → Int
  | .null => 0
  | .node _ f _ _ => f

/-- Constructor `HuffmanNode(char ch, int freq)`. -/
def mkLeaf (ch : Char) (freq : Int) : HuffmanNode := .node ch freq .null .null

/-- Constructor `HuffmanNode(int freq)` applied to the `int` sum
`left->freq + right->freq`, followed by the two child assignments of the
merge loop. -/
def mkMerged (left right : HuffmanNode) : HuffmanNode :=
  .node (Char.ofNat 0) (wrap32 (left.freq + right.freq)) left right

/-! ## `std::unordered_map<char, T>` -/

/-- Lookup of a key (`find`, `at`). -/
def mapFind {β : Type} : List (Char × β) → Char → Option β
  | [], _ => none
  | (k, v) :: m, c => if k = c then some v else mapFind m c

/-- Assignment `m[c] = v`: overwrite the entry of `c` or add one. -/
def mapSet {β : Type} : List (Char × β) → Char → β → List (Char × β)
  | [], c, v => [(c, v)]
  | (k, w) :: m, c, v => if k = c then (k, v) :: m else (k, w) :: mapSet m c v

/-- Step 1 of `main`: `for (char ch : data) freq[ch]++;` on an empty map,
where `freq[ch]` starts at `0` and `++` is an `int` increment. -/
def countFreq (data : List Char) : List (Char × Int) :=
  data.foldl (fun freq ch => mapSet freq ch (wrap32 ((mapFind freq ch).getD 0 + 1))) []

/-! ## `std::priority_queue` with `Compare` -/

/-- The call operator of `Compare`: `a->freq > b->freq`. -/
def Compare (a b : HuffmanNode) : Bool := decide (a.freq > b.freq)

/-- The choice a priority queue makes among several admissible tops. -/
abbrev TieBreak := List HuffmanNode → Nat

/-- The elements `top()` may return: those that `Compare` orders before no
element of the queue. -/
def tops (heap : List HuffmanNode) : List HuffmanNode :=
  heap.filter (fun x => heap.all (fun y => !Compare x y))

/-- The call `heap.top()`. -/
def top (pick : TieBreak) (heap : List HuffmanNode) : Except Fault HuffmanNode :=
  match (tops heap)[pick heap % (tops heap).length]? with
  | some t => .ok t
  | none => .error .emptyTop

/-- The call `heap.pop()`: removes the element `top()` returns. -/
def pop (pick : TieBreak) (heap : List HuffmanNode) : List HuffmanNode :=
  match top pick heap with
  | .ok t => heap.erase t
  | .error _ => heap

/-- The call `heap.push(x)`. -/
def push (heap : List HuffmanNode) (x : HuffmanNode) : List HuffmanNode := heap ++ [x]

/-- The first loop of step 2: one leaf per entry of the frequency table. -/
def initHeap (freq : List (Char × Int)) : List HuffmanNode :=
  freq.foldl (fun heap pair => push heap (mkLeaf pair.1 pair.2)) []

/-- The body of `while (heap.size() > 1)`. -/
def mergeStep (pick : TieBreak) (heap : List HuffmanNode) : Except Fault (List HuffmanNode) :=
  match top pick heap with
  | .error e => .error e
  | .ok left =>
    match top pick (pop pick heap) with
    | .error e => .error e
    | .ok right => .ok (push (pop pick (pop pick heap)) (mkMerged left right))

/-- The loop `while (heap.size() > 1) { ... }`, bounded by `fuel` iterations. -/
def mergeLoop (pick : TieBreak) : Nat → List HuffmanNode → Except Fault (List HuffmanNode)
  | 0, heap => if heap.length > 1 then .error .fuel else .ok heap
  | fuel + 1, heap =>
    if heap.length > 1 then
      match mergeStep pick heap with
      | .error e => .error e
      | .ok heap1 => mergeLoop pick fuel heap1
    else .ok heap

/-- Step 2 of `main`: fill the queue, run the merge loop, `root = heap.top()`. -/
def buildTree (pick : TieBreak) (freq : List (Char × Int)) : Except Fault HuffmanNode :=
  match mergeLoop pick (initHeap freq).length (initHeap freq) with
  | .error e => .error e
  | .ok heap => top pick heap

/-! ## `generateCodes`, `encode`, `decode` -/

/-- The recursive traversal `generateCodes(root, code, codes)`; the table is
passed in and returned. -/
def generateCodes : HuffmanNode → List Char → List (Char × List Char) → List (Char × List Char)
  | .null, _, codes => codes
  | .node ch _ left right, code, codes =>
    let codes1 := if left = .null ∧ right = .null then mapSet codes ch code else codes
    let codes2 := generateCodes left (code ++ ['0']) codes1
    generateCodes right (code ++ ['1']) codes2

/-- The loop of `encode`, with the string built so far. -/
def encodeLoop (codes : List (Char × List Char)) : List Char → List Char → Except Fault (List Char)
  | [], encoded => .ok encoded
  | ch :: data, encoded =>
    match mapFind codes ch with
    | none => .error .outOfRange
    | some code => encodeLoop codes data (encoded ++ code)

/-- The function `encode(data, codes)`. -/
def encode (data : List Char) (codes : List (Char × List Char)) : Except Fault (List Char) :=
  encodeLoop codes data []

/-- The loop of `decode`, with the current node and the string built so far. -/
def decodeLoop (root : HuffmanNode) :
    List Char → HuffmanNode → List Char → Except Fault (List Char)
  | [], _, decoded => .ok decoded
  | bit :: encoded, current, decoded =>
    match current with
    | .null => .error .nullDeref
    | .node _ _ left right =>
      match (if bit = '0' then left else right) with
      | .null => .error .nullDeref
      | .node ch f l r =>
        if l = .null ∧ r = .null then decodeLoop root encoded root (decoded ++ [ch])
        else decodeLoop root encoded (.node ch f l r) decoded

/-- The function `decode(encoded, root)`. -/
def decode (encoded : List Char) (root : HuffmanNode) : Except Fault (List Char) :=
  decodeLoop root encoded root []

/-- Steps 2 to 5 of `main` for the text `data` and a frequency table `tbl`:
the decoded string, or the fault that stopped the run. -/
def roundTrip (pick : TieBreak) (tbl : List (Char × Int)) (data : List Char) :
    Except Fault (List Char) :=
  match buildTree pick tbl with
  | .error e => .error e
  | .ok root =>
    match encode data (generateCodes root [] []) with
    | .error e => .error e
    | .ok encoded => decode encoded root


/-! ## Auxiliary notions used in the statements and proofs -/

/-- The counting loop started from a table `m`. -/
def countFrom (m : List (Char × Int)) (data : List Char) : List (Char × Int) :=
  data.foldl (fun freq ch => mapSet freq ch (wrap32 ((mapFind freq ch).getD 0 + 1))) m

/-- A node both of whose child pointers are null (the test
`!p->left && !p->right` of the source). -/
def HuffmanNode.isLeaf : HuffmanNode → Bool
  | .node _ _ .null .null => true
  | _ => false

/-- Every node of the tree has no child or two children; null is not a tree. -/
def HuffmanNode.strict : HuffmanNode → Bool
  | .null => false
  | .node _ _ left right =>
    (decide (left = .null) && decide (right = .null)) || (left.strict && right.strict)

/-- The leaves of a tree, left to right, as pairs of symbol and frequency. -/
def leaves : HuffmanNode → List (Char × Int)
  | .null => []
  | .node ch f left right =>
    (if left = .null ∧ right = .null then [(ch, f)] else []) ++ leaves left ++ leaves right

/-- The leaves of a tree, left to right, each with the path that leads to it
from the root (`'0'` for left, `'1'` for right) appended to `code`. -/
def leafPaths : HuffmanNode → List Char → List (Char × List Char)
  | .null, _ => []
  | .node ch _ left right, code =>
    (if left = .null ∧ right = .null then [(ch, code)] else [])
      ++ leafPaths left (code ++ ['0']) ++ leafPaths right (code ++ ['1'])

/-- A sequence of assignments `codes[p.1] = p.2`. -/
def setAll (codes : List (Char × List Char)) (ps : List (Char × List Char)) :
    List (Char × List Char) :=
  ps.foldl (fun m p => mapSet m p.1 p.2) codes

/-- Weighted path length of the part of a tree below a node at depth `d`:
the sum over its leaves of frequency times depth. -/
def wplAt : HuffmanNode → Nat → Int
  | .null, _ => 0
  | .node _ f left right, d =>
    (if left = .null ∧ right = .null then f * d else 0) + wplAt left (d + 1) + wplAt right (d + 1)

/-- Weighted path length of a tree. -/
def wpl (t : HuffmanNode) : Int := wplAt t 0

/-- The concatenation of the codes of the characters of `data`. -/
def concatCodes (codes : List (Char × List Char)) (data : List Char) : List Char :=
  data.flatMap (fun ch => (mapFind codes ch).getD [])

/-- Sum of the frequencies on the leaves of a tree. -/
def leafSum (t : HuffmanNode) : Int := ((leaves t).map Prod.snd).sum

/-- What holds of the queue throughout the merge loop for the table `tbl`:
the leaves of its trees are the entries of the table and every tree is
strict. -/
def HeapInv (tbl : List (Char × Int)) (heap : List HuffmanNode) : Prop :=
  (heap.flatMap leaves).Perm tbl ∧ (∀ t ∈ heap, t.strict = true)

/-- The queue invariant on frequencies, which holds when no `int` sum
overflows: every root in the queue holds the sum of the frequencies of the
leaves below it. -/
def FreqInv (tbl : List (Char × Int)) (heap : List HuffmanNode) : Prop :=
  HeapInv tbl heap ∧ ∀ t ∈ heap, t.freq = leafSum t

/-- The multisets of leaf depths of the binary trees in which every inner
node has two children: a single leaf at depth `0`, or two such trees put
under a new root. -/
inductive TreeDepths : Multiset Nat → Prop where
  | leaf : TreeDepths {0}
  | node (D1 D2 : Multiset Nat) : TreeDepths D1 → TreeDepths D2 →
      TreeDepths ((D1 + D2).map (fun d => d + 1))

/-- Cost of a multiset of pairs (weight, depth): the sum of weight times depth. -/
def profCost (Q : Multiset (Int × Nat)) : Int := (Q.map (fun p => p.1 * (p.2 : Int))).sum

/-- The queue invariant of the optimality proof, for a bound `K` (the cost of
a competing tree): some tree profile over the frequencies now in the queue
costs, together with the weighted path lengths already built, at most `K`. -/
def OptInv (tbl : List (Char × Int)) (K : Int) (heap : List HuffmanNode) : Prop :=
  FreqInv tbl heap ∧ ∃ Q : Multiset (Int × Nat), TreeDepths (Q.map Prod.snd) ∧
    Q.map Prod.fst = ((heap.map HuffmanNode.freq : List Int) : Multiset Int) ∧
    profCost Q + (heap.map wpl).sum ≤ K

/-- The code the table holds for a symbol (empty when it holds none). -/
def codeOf (codes : List (Char × List Char)) (ch : Char) : List Char :=
  (mapFind codes ch).getD []

/-- All the roots the merge loop can end with, over every choice the queue
can make among nodes of equal frequency. -/
def allRoots : Nat → List HuffmanNode → List HuffmanNode
  | 0, heap => if heap.length > 1 then [] else tops heap
  | fuel + 1, heap =>
    if heap.length > 1 then
      (tops heap).flatMap (fun l =>
        (tops (heap.erase l)).flatMap (fun r =>
          allRoots fuel (push ((heap.erase l).erase r) (mkMerged l r))))
    else tops heap

/-! ## Notions for the claims on errors, shape, termination and completeness -/

/-- Whether a fault is a failure that the program reports to its caller (a
C++ exception), as opposed to undefined behaviour of the run or the loop
bound of the model. -/
def Fault.reported : Fault → Bool
  | .outOfRange => true
  | _ => false

/-- Height of a tree: the number of edges on its longest path from the root
to a leaf. -/
def height : HuffmanNode → Nat
  | .null => 0
  | .node _ _ left right =>
    if left = .null ∧ right = .null then 0 else 1 + max (height left) (height right)

/-- Number of internal nodes: the nodes that have a child. -/
def internalCount : HuffmanNode → Nat
  | .null => 0
  | .node _ _ left right =>
    (if left = .null ∧ right = .null then 0 else 1) + internalCount left + internalCount right

/-- Every node of the tree holds as its frequency the sum of the frequencies
of the leaves below it. -/
def aggregate : HuffmanNode → Bool
  | .null => true
  | .node ch f left right =>
    decide (f = leafSum (.node ch f left right)) && aggregate left && aggregate right

/-- In every internal node of the tree the left child's frequency is at most
the right child's. -/
def childOrder : HuffmanNode → Bool
  | .null => true
  | .node _ _ left right =>
    (decide (left = .null ∧ right = .null) || decide (left.freq ≤ right.freq))
      && childOrder left && childOrder right

/-- The merge loop with a counter of the iterations it has made: the same
control flow as `mergeLoop`, returning the final queue and the count. -/
def mergeLoopCount (pick : TieBreak) :
    Nat → List HuffmanNode → Nat → Except Fault (List HuffmanNode × Nat)
  | 0, heap, n => if heap.length > 1 then .error .fuel else .ok (heap, n)
  | fuel + 1, heap, n =>
    if heap.length > 1 then
      match mergeStep pick heap with
      | .error e => .error e
      | .ok heap1 => mergeLoopCount pick fuel heap1 (n + 1)
    else .ok (heap, n)

/-- The loop of `decode` with its whole state: the values of `current` and
`decoded` when the bits have been consumed. -/
def decodeState (root : HuffmanNode) :
    List Char → HuffmanNode → List Char → Except Fault (HuffmanNode × List Char)
  | [], current, decoded => .ok (current, decoded)
  | bit :: encoded, current, decoded =>
    match current with
    | .null => .error .nullDeref
    | .node _ _ left right =>
      match (if bit = '0' then left else right) with
      | .null => .error .nullDeref
      | .node ch f l r =>
        if l = .null ∧ r = .null then decodeState root encoded root (decoded ++ [ch])
        else decodeState root encoded (.node ch f l r) decoded

/-- The Kraft sum of a code table: the sum over its entries of `2` to the
power minus the length of the code, as a rational number. -/
def kraftSum (codes : List (Char × List Char)) : ℚ :=
  (codes.map (fun p => (1 : ℚ) / 2 ^ p.2.length)).sum

theorem wrap32_of_range (x : Int) (h1 : -2147483648 ≤ x) (h2 : x < 2147483648) :
    wrap32 x = x := by
  unfold wrap32
  omega

theorem wrap32_wrap32_add (a b : Int) : wrap32 (wrap32 a + b) = wrap32 (a + b) := by
  unfold wrap32
  omega

theorem wrap32_range (x : Int) : -2147483648 ≤ wrap32 x ∧ wrap32 x < 2147483648 := by
  unfold wrap32
  omega

/-! ## Facts about the map model -/

theorem mapFind_mapSet {β : Type} (m : List (Char × β)) (c c2 : Char) (v : β) :
    mapFind (mapSet m c v) c2 = if c = c2 then some v else mapFind m c2 := by
  induction m with
  | nil => simp [mapSet, mapFind]
  | cons p m ih =>
    obtain ⟨k, w⟩ := p
    by_cases hk : k = c
    · subst hk
      by_cases h2 : k = c2 <;> simp [mapSet, mapFind, h2]
    · by_cases h2 : k = c2
      · subst h2
        have : ¬ c = k := fun h => hk h.symm
        simp [mapSet, mapFind, hk, this]
      · simp [mapSet, mapFind, hk, h2, ih]

theorem mapFind_eq_none_iff {β : Type} (m : List (Char × β)) (c : Char) :
    mapFind m c = none ↔ c ∉ m.map Prod.fst := by
  induction m with
  | nil => simp [mapFind]
  | cons p m ih =>
    obtain ⟨k, w⟩ := p
    by_cases hk : k = c
    · simp [mapFind, hk]
    · have : ¬ c = k := fun h => hk h.symm
      simp [mapFind, hk, ih, this]

theorem mapFind_mem {β : Type} (m : List (Char × β)) (c : Char) (v : β)
    (h : mapFind m c = some v) : (c, v) ∈ m := by
  induction m with
  | nil => simp [mapFind] at h
  | cons p m ih =>
    obtain ⟨k, w⟩ := p
    by_cases hk : k = c
    · simp [mapFind, hk] at h
      simp [hk, h]
    · simp [mapFind, hk] at h
      exact List.mem_cons_of_mem _ (ih h)

theorem mapFind_of_mem {β : Type} (m : List (Char × β)) (c : Char) (v : β)
    (hnd : (m.map Prod.fst).Nodup) (h : (c, v) ∈ m) : mapFind m c = some v := by
  induction m with
  | nil => simp at h
  | cons p m ih =>
    obtain ⟨k, w⟩ := p
    simp only [List.map_cons, List.nodup_cons] at hnd
    rcases List.mem_cons.1 h with h1 | h1
    · simp only [Prod.mk.injEq] at h1
      simp [mapFind, h1.1, h1.2]
    · have hk : ¬ k = c := by
        intro hk
        apply hnd.1
        rw [hk]
        exact List.mem_map.2 ⟨(c, v), h1, rfl⟩
      simp [mapFind, hk, ih hnd.2 h1]

theorem keys_mapSet {β : Type} (m : List (Char × β)) (c : Char) (v : β) :
    (mapSet m c v).map Prod.fst =
      if c ∈ m.map Prod.fst then m.map Prod.fst else m.map Prod.fst ++ [c] := by
  induction m with
  | nil => simp [mapSet]
  | cons p m ih =>
    obtain ⟨k, w⟩ := p
    by_cases hk : k = c
    · simp [mapSet, hk]
    · have hck : ¬ c = k := fun h => hk h.symm
      simp only [mapSet, hk, if_false, List.map_cons, ih, List.mem_cons, hck, false_or]
      split <;> simp

theorem keys_mapSet_nodup {β : Type} (m : List (Char × β)) (c : Char) (v : β)
    (h : (m.map Prod.fst).Nodup) : ((mapSet m c v).map Prod.fst).Nodup := by
  rw [keys_mapSet]
  split
  · exact h
  · rename_i hc
    exact List.Nodup.append h (List.nodup_singleton c) (by simpa using hc)

theorem countFrom_find (data : List Char) (m : List (Char × Int)) (c : Char) :
    mapFind (countFrom m data) c =
      if c ∈ data then some (wrap32 ((mapFind m c).getD 0 + data.count c)) else mapFind m c := by
  induction data generalizing m with
  | nil => simp [countFrom]
  | cons d data ih =>
    have hstep : countFrom m (d :: data) =
        countFrom (mapSet m d (wrap32 ((mapFind m d).getD 0 + 1))) data := rfl
    rw [hstep, ih, mapFind_mapSet]
    by_cases hd : d = c
    · subst hd
      by_cases hm : d ∈ data
      · simp only [hm, if_true, List.mem_cons, true_or, Option.getD_some, List.count_cons_self,
          Option.some.injEq]
        rw [wrap32_wrap32_add]
        congr 1
        push_cast
        ring
      · simp [hm, List.count_eq_zero_of_not_mem hm]
    · have hcd : ¬ c = d := fun h => hd h.symm
      have hbeq : (d == c) = false := by simpa using hd
      simp [hd, hcd, List.count_cons, hbeq]

theorem countFrom_nodup (data : List Char) (m : List (Char × Int))
    (h : (m.map Prod.fst).Nodup) : ((countFrom m data).map Prod.fst).Nodup := by
  induction data generalizing m with
  | nil => simpa [countFrom] using h
  | cons d data ih => exact ih _ (keys_mapSet_nodup m d _ h)

/-- The counted table holds for every character of the text the number of
its occurrences as a 32-bit `int`, and nothing for other characters. -/
theorem countFreq_find (data : List Char) (c : Char) :
    mapFind (countFreq data) c = if c ∈ data then some (wrap32 (data.count c)) else none := by
  have := countFrom_find data [] c
  simpa [countFrom, countFreq, mapFind] using this

theorem countFreq_nodup (data : List Char) : ((countFreq data).map Prod.fst).Nodup :=
  countFrom_nodup data [] (by simp)

theorem countFreq_mem (data : List Char) (c : Char) (n : Int) :
    (c, n) ∈ countFreq data ↔ c ∈ data ∧ n = wrap32 (data.count c) := by
  constructor
  · intro h
    have h1 := mapFind_of_mem _ c n (countFreq_nodup data) h
    rw [countFreq_find] at h1
    by_cases hc : c ∈ data
    · simp [hc] at h1
      exact ⟨hc, h1.symm⟩
    · simp [hc] at h1
  · intro h
    obtain ⟨hc, hn⟩ := h
    apply mapFind_mem
    rw [countFreq_find, hn, if_pos hc]

theorem countFreq_keys (data : List Char) (c : Char) :
    c ∈ (countFreq data).map Prod.fst ↔ c ∈ data := by
  have h := mapFind_eq_none_iff (countFreq data) c
  rw [countFreq_find] at h
  by_cases hc : c ∈ data
  · simp only [hc, if_true] at h
    simp only [hc, iff_true]
    by_contra hn
    exact absurd (h.2 hn) (by simp)
  · simp only [hc, if_false, true_iff] at h
    simp [hc, h]

/-! ## `generateCodes` visits the leaves from left to right -/

theorem generateCodes_eq (t : HuffmanNode) (code : List Char) (codes : List (Char × List Char)) :
    generateCodes t code codes = setAll codes (leafPaths t code) := by
  induction t generalizing code codes with
  | null => simp [generateCodes, leafPaths, setAll]
  | node ch f l r ihl ihr =>
    simp only [generateCodes, leafPaths, ihl, ihr, setAll, List.foldl_append]
    split <;> simp

theorem mapFind_append {β : Type} (m1 m2 : List (Char × β)) (c : Char) :
    mapFind (m1 ++ m2) c = match mapFind m1 c with
      | some x => some x
      | none => mapFind m2 c := by
  induction m1 with
  | nil => simp [mapFind]
  | cons p m ih =>
    obtain ⟨k, w⟩ := p
    by_cases hk : k = c <;> simp [mapFind, hk, ih]

theorem setAll_find (ps : List (Char × List Char)) (codes : List (Char × List Char)) (c : Char) :
    mapFind (setAll codes ps) c = match mapFind ps.reverse c with
      | some x => some x
      | none => mapFind codes c := by
  induction ps generalizing codes with
  | nil => simp [setAll, mapFind]
  | cons p ps ih =>
    have hstep : setAll codes (p :: ps) = setAll (mapSet codes p.1 p.2) ps := rfl
    rw [hstep, ih, List.reverse_cons, mapFind_append, mapFind_mapSet]
    cases h : mapFind ps.reverse c with
    | some x => simp
    | none =>
      obtain ⟨k, w⟩ := p
      by_cases hk : k = c <;> simp [mapFind, hk]

/-- An entry of the generated table is the path of a leaf that carries the symbol. -/
theorem generateCodes_find_mem (t : HuffmanNode) (c : Char) (x : List Char)
    (h : mapFind (generateCodes t [] []) c = some x) : (c, x) ∈ leafPaths t [] := by
  rw [generateCodes_eq, setAll_find] at h
  cases h2 : mapFind (leafPaths t []).reverse c with
  | some y =>
    rw [h2] at h
    simp only [Option.some.injEq] at h
    subst h
    exact List.mem_reverse.1 (mapFind_mem _ _ _ h2)
  | none =>
    rw [h2] at h
    simp [mapFind] at h

/-- Every symbol carried by a leaf has an entry in the generated table. -/
theorem generateCodes_find_some (t : HuffmanNode) (c : Char)
    (h : c ∈ (leafPaths t []).map Prod.fst) :
    ∃ x, mapFind (generateCodes t [] []) c = some x := by
  rw [generateCodes_eq, setAll_find]
  cases h2 : mapFind (leafPaths t []).reverse c with
  | some y => exact ⟨y, rfl⟩
  | none =>
    exfalso
    rw [mapFind_eq_none_iff] at h2
    apply h2
    simpa using h

theorem generateCodes_find_none (t : HuffmanNode) (c : Char)
    (h : c ∉ (leafPaths t []).map Prod.fst) :
    mapFind (generateCodes t [] []) c = none := by
  cases h2 : mapFind (generateCodes t [] []) c with
  | none => rfl
  | some x =>
    exfalso
    exact h (List.mem_map.2 ⟨(c, x), generateCodes_find_mem t c x h2, rfl⟩)

theorem leafPaths_code (t : HuffmanNode) (code : List Char) :
    leafPaths t code = (leafPaths t []).map (fun p => (p.1, code ++ p.2)) := by
  induction t generalizing code with
  | null => simp [leafPaths]
  | node ch f l r ihl ihr =>
    simp only [leafPaths, List.nil_append, List.map_append]
    rw [ihl (code ++ ['0']), ihr (code ++ ['1']), ihl ['0'], ihr ['1']]
    simp only [List.map_map]
    congr 1
    · congr 1
      · split <;> simp
      · apply List.map_congr_left
        intro p _
        simp
    · apply List.map_congr_left
      intro p _
      simp

theorem leafPaths_keys (t : HuffmanNode) (code : List Char) :
    (leafPaths t code).map Prod.fst = (leaves t).map Prod.fst := by
  induction t generalizing code with
  | null => simp [leafPaths, leaves]
  | node ch f l r ihl ihr =>
    simp only [leafPaths, leaves, List.map_append, ihl, ihr]
    congr 2
    split <;> simp

theorem leafPaths_node (ch : Char) (f : Int) (l r : HuffmanNode) (c : Char) (p : List Char)
    (hint : ¬ (l = .null ∧ r = .null)) :
    (c, p) ∈ leafPaths (.node ch f l r) [] ↔
      (∃ q, p = '0' :: q ∧ (c, q) ∈ leafPaths l []) ∨
      (∃ q, p = '1' :: q ∧ (c, q) ∈ leafPaths r []) := by
  simp only [leafPaths, hint, if_false, List.nil_append, List.mem_append]
  rw [leafPaths_code l ['0'], leafPaths_code r ['1']]
  simp only [List.mem_map, Prod.mk.injEq, Prod.exists]
  constructor
  · rintro (⟨a, b, hm, rfl, rfl⟩ | ⟨a, b, hm, rfl, rfl⟩)
    · exact Or.inl ⟨b, rfl, hm⟩
    · exact Or.inr ⟨b, rfl, hm⟩
  · rintro (⟨q, rfl, hm⟩ | ⟨q, rfl, hm⟩)
    · exact Or.inl ⟨c, q, hm, rfl, rfl⟩
    · exact Or.inr ⟨c, q, hm, rfl, rfl⟩

theorem leafPaths_leaf (ch : Char) (f : Int) :
    leafPaths (.node ch f .null .null) [] = [(ch, [])] := by
  simp [leafPaths]

/-- The paths of two different leaves of a tree: neither starts the other. -/
theorem leafPaths_pairwise (t : HuffmanNode) :
    (leafPaths t []).Pairwise (fun p q => ¬ p.2 <+: q.2 ∧ ¬ q.2 <+: p.2) := by
  induction t with
  | null => simp [leafPaths]
  | node ch f l r ihl ihr =>
    by_cases hleaf : l = .null ∧ r = .null
    · obtain ⟨rfl, rfl⟩ := hleaf
      simp [leafPaths]
    · simp only [leafPaths, hleaf, if_false, List.nil_append]
      rw [leafPaths_code l ['0'], leafPaths_code r ['1']]
      rw [List.pairwise_append]
      refine ⟨?_, ?_, ?_⟩
      · rw [List.pairwise_map]
        refine ihl.imp ?_
        intro p q h
        simpa [List.prefix_cons_inj] using h
      · rw [List.pairwise_map]
        refine ihr.imp ?_
        intro p q h
        simpa [List.prefix_cons_inj] using h
      · intro p hp q hq
        simp only [List.mem_map] at hp hq
        obtain ⟨p0, _, rfl⟩ := hp
        obtain ⟨q0, _, rfl⟩ := hq
        simp [List.cons_prefix_cons]

/-! ## `encode` -/

theorem encodeLoop_ok (codes : List (Char × List Char)) (data : List Char) (acc : List Char)
    (h : ∀ ch ∈ data, mapFind codes ch ≠ none) :
    encodeLoop codes data acc = .ok (acc ++ concatCodes codes data) := by
  induction data generalizing acc with
  | nil => simp [encodeLoop, concatCodes]
  | cons d data ih =>
    have hd := h d (List.mem_cons_self _ _)
    cases hf : mapFind codes d with
    | none => exact absurd hf hd
    | some code =>
      simp only [encodeLoop, hf]
      rw [ih _ (fun ch hch => h ch (List.mem_cons_of_mem _ hch))]
      simp [concatCodes, hf]

theorem encodeLoop_error (codes : List (Char × List Char)) (data : List Char) (acc : List Char)
    (h : ∃ ch ∈ data, mapFind codes ch = none) :
    encodeLoop codes data acc = .error .outOfRange := by
  induction data generalizing acc with
  | nil => simp at h
  | cons d data ih =>
    cases hf : mapFind codes d with
    | none => simp [encodeLoop, hf]
    | some code =>
      simp only [encodeLoop, hf]
      apply ih
      obtain ⟨ch, hch, hn⟩ := h
      rcases List.mem_cons.1 hch with rfl | hch
      · rw [hf] at hn
        exact absurd hn (by simp)
      · exact ⟨ch, hch, hn⟩

theorem encode_ok (codes : List (Char × List Char)) (data : List Char)
    (h : ∀ ch ∈ data, mapFind codes ch ≠ none) :
    encode data codes = .ok (concatCodes codes data) := by
  simpa [encode] using encodeLoop_ok codes data [] h

theorem concatCodes_append (codes : List (Char × List Char)) (xs ys : List Char) :
    concatCodes codes (xs ++ ys) = concatCodes codes xs ++ concatCodes codes ys := by
  simp [concatCodes, List.flatMap_append]

/-! ## `decode` on a tree whose root has children -/

theorem strict_children (ch : Char) (f : Int) (l r : HuffmanNode)
    (hs : (HuffmanNode.node ch f l r).strict = true) (hint : ¬ (l = .null ∧ r = .null)) :
    l.strict = true ∧ r.strict = true := by
  simp only [HuffmanNode.strict, Bool.or_eq_true, Bool.and_eq_true, decide_eq_true_eq] at hs
  rcases hs with hs | hs
  · exact absurd hs hint
  · exact hs

theorem strict_ne_null (t : HuffmanNode) (hs : t.strict = true) : t ≠ .null := by
  intro h
  subst h
  simp [HuffmanNode.strict] at hs

/-- Following the path of a leaf from an inner node emits the leaf's symbol
and puts the walk back at the root. -/
theorem decodeLoop_path (root : HuffmanNode) (cur : HuffmanNode) (hs : cur.strict = true) :
    ∀ (c : Char) (p rest acc : List Char), cur.isLeaf = false → (c, p) ∈ leafPaths cur [] →
      decodeLoop root (p ++ rest) cur acc = decodeLoop root rest root (acc ++ [c]) := by
  induction cur with
  | null => simp [HuffmanNode.strict] at hs
  | node ch f l r ihl ihr =>
    intro c p rest acc hnl hmem
    have hint : ¬ (l = .null ∧ r = .null) := by
      rintro ⟨rfl, rfl⟩
      simp [HuffmanNode.isLeaf] at hnl
    obtain ⟨hsl, hsr⟩ := strict_children ch f l r hs hint
    rw [leafPaths_node ch f l r c p hint] at hmem
    rcases hmem with ⟨q, rfl, hq⟩ | ⟨q, rfl, hq⟩
    · cases l with
      | null => simp [HuffmanNode.strict] at hsl
      | node ch2 f2 l2 r2 =>
        by_cases hleaf : l2 = .null ∧ r2 = .null
        · obtain ⟨rfl, rfl⟩ := hleaf
          rw [leafPaths_leaf] at hq
          simp only [List.mem_singleton, Prod.mk.injEq] at hq
          obtain ⟨rfl, rfl⟩ := hq
          simp [decodeLoop]
        · have hnl2 : (HuffmanNode.node ch2 f2 l2 r2).isLeaf = false := by
            cases l2 <;> cases r2 <;> simp_all [HuffmanNode.isLeaf]
          have := ihl hsl c q rest acc hnl2 hq
          simp only [List.cons_append, decodeLoop, if_true, hleaf, if_false]
          exact this
    · cases r with
      | null => simp [HuffmanNode.strict] at hsr
      | node ch2 f2 l2 r2 =>
        by_cases hleaf : l2 = .null ∧ r2 = .null
        · obtain ⟨rfl, rfl⟩ := hleaf
          rw [leafPaths_leaf] at hq
          simp only [List.mem_singleton, Prod.mk.injEq] at hq
          obtain ⟨rfl, rfl⟩ := hq
          simp [decodeLoop]
        · have hnl2 : (HuffmanNode.node ch2 f2 l2 r2).isLeaf = false := by
            cases l2 <;> cases r2 <;> simp_all [HuffmanNode.isLeaf]
          have := ihr hsr c q rest acc hnl2 hq
          have h10 : ¬ ('1' = '0') := by decide
          simp only [List.cons_append, decodeLoop, h10, if_false, hleaf]
          exact this

/-- Bits that stop before the end of a leaf's path emit nothing. -/
theorem decodeLoop_cut (root : HuffmanNode) (cur : HuffmanNode) (hs : cur.strict = true) :
    ∀ (c : Char) (p acc : List Char), cur.isLeaf = false → (c, p) ∈ leafPaths cur [] →
      decodeLoop root p.dropLast cur acc = .ok acc := by
  induction cur with
  | null => simp [HuffmanNode.strict] at hs
  | node ch f l r ihl ihr =>
    intro c p acc hnl hmem
    have hint : ¬ (l = .null ∧ r = .null) := by
      rintro ⟨rfl, rfl⟩
      simp [HuffmanNode.isLeaf] at hnl
    obtain ⟨hsl, hsr⟩ := strict_children ch f l r hs hint
    rw [leafPaths_node ch f l r c p hint] at hmem
    rcases hmem with ⟨q, rfl, hq⟩ | ⟨q, rfl, hq⟩
    · cases l with
      | null => simp [HuffmanNode.strict] at hsl
      | node ch2 f2 l2 r2 =>
        by_cases hleaf : l2 = .null ∧ r2 = .null
        · obtain ⟨rfl, rfl⟩ := hleaf
          rw [leafPaths_leaf] at hq
          simp only [List.mem_singleton, Prod.mk.injEq] at hq
          obtain ⟨rfl, rfl⟩ := hq
          simp [decodeLoop]
        · have hnl2 : (HuffmanNode.node ch2 f2 l2 r2).isLeaf = false := by
            cases l2 <;> cases r2 <;> simp_all [HuffmanNode.isLeaf]
          have := ihl hsl c q acc hnl2 hq
          cases q with
          | nil =>
            simp [decodeLoop]
          | cons b q =>
            simp only [List.dropLast_cons₂, decodeLoop, if_true, hleaf, if_false]
            exact this
    · cases r with
      | null => simp [HuffmanNode.strict] at hsr
      | node ch2 f2 l2 r2 =>
        by_cases hleaf : l2 = .null ∧ r2 = .null
        · obtain ⟨rfl, rfl⟩ := hleaf
          rw [leafPaths_leaf] at hq
          simp only [List.mem_singleton, Prod.mk.injEq] at hq
          obtain ⟨rfl, rfl⟩ := hq
          simp [decodeLoop]
        · have hnl2 : (HuffmanNode.node ch2 f2 l2 r2).isLeaf = false := by
            cases l2 <;> cases r2 <;> simp_all [HuffmanNode.isLeaf]
          have := ihr hsr c q acc hnl2 hq
          have h10 : ¬ ('1' = '0') := by decide
          cases q with
          | nil =>
            simp [decodeLoop]
          | cons b q =>
            simp only [List.dropLast_cons₂, decodeLoop, h10, if_false, hleaf]
            exact this

/-- Decoding the concatenated codes of `data` from the root emits `data`. -/
theorem decodeLoop_concat (root : HuffmanNode) (hs : root.strict = true)
    (hnl : root.isLeaf = false) (codes : List (Char × List Char))
    (hcodes : ∀ c x, mapFind codes c = some x → (c, x) ∈ leafPaths root [])
    (data : List Char) (hdata : ∀ ch ∈ data, mapFind codes ch ≠ none) (rest acc : List Char) :
    decodeLoop root (concatCodes codes data ++ rest) root acc
      = decodeLoop root rest root (acc ++ data) := by
  induction data generalizing acc with
  | nil => simp [concatCodes]
  | cons d data ih =>
    have hd := hdata d (List.mem_cons_self _ _)
    cases hf : mapFind codes d with
    | none => exact absurd hf hd
    | some code =>
      have hcc : concatCodes codes (d :: data) = code ++ concatCodes codes data := by
        simp [concatCodes, hf]
      rw [hcc, List.append_assoc,
        decodeLoop_path root root hs d code _ acc hnl (hcodes d code hf),
        ih (fun ch hch => hdata ch (List.mem_cons_of_mem _ hch))]
      simp

theorem leafPaths_ne_nil (t : HuffmanNode) (hnl : t.isLeaf = false) (c : Char) (p : List Char)
    (h : (c, p) ∈ leafPaths t []) : p ≠ [] := by
  cases t with
  | null => simp [leafPaths] at h
  | node ch f l r =>
    have hint : ¬ (l = .null ∧ r = .null) := by
      rintro ⟨rfl, rfl⟩
      simp [HuffmanNode.isLeaf] at hnl
    rw [leafPaths_node ch f l r c p hint] at h
    rcases h with ⟨q, rfl, _⟩ | ⟨q, rfl, _⟩ <;> simp

/-! ## The priority queue -/

theorem mem_tops (heap : List HuffmanNode) (t : HuffmanNode) :
    t ∈ tops heap ↔ t ∈ heap ∧ ∀ y ∈ heap, t.freq ≤ y.freq := by
  simp [tops, Compare, List.mem_filter]

theorem exists_min_freq (heap : List HuffmanNode) (hne : heap ≠ []) :
    ∃ t ∈ heap, ∀ y ∈ heap, t.freq ≤ y.freq := by
  induction heap with
  | nil => exact absurd rfl hne
  | cons x heap ih =>
    by_cases hnil : heap = []
    · subst hnil
      exact ⟨x, by simp, by simp⟩
    · obtain ⟨m, hm, hmin⟩ := ih hnil
      by_cases hx : x.freq ≤ m.freq
      · refine ⟨x, by simp, ?_⟩
        intro y hy
        rcases List.mem_cons.1 hy with rfl | hy
        · exact le_refl _
        · exact le_trans hx (hmin y hy)
      · refine ⟨m, List.mem_cons_of_mem _ hm, ?_⟩
        intro y hy
        rcases List.mem_cons.1 hy with rfl | hy
        · omega
        · exact hmin y hy

theorem tops_ne_nil (heap : List HuffmanNode) (hne : heap ≠ []) : tops heap ≠ [] := by
  obtain ⟨t, ht, hmin⟩ := exists_min_freq heap hne
  exact List.ne_nil_of_mem ((mem_tops heap t).2 ⟨ht, hmin⟩)

theorem top_mem (pick : TieBreak) (heap : List HuffmanNode) (t : HuffmanNode)
    (h : top pick heap = .ok t) : t ∈ heap ∧ ∀ y ∈ heap, t.freq ≤ y.freq := by
  unfold top at h
  cases hg : (tops heap)[pick heap % (tops heap).length]? with
  | none => rw [hg] at h; simp at h
  | some u =>
    rw [hg] at h
    simp only [Except.ok.injEq] at h
    subst h
    exact (mem_tops heap u).1 (List.getElem?_mem hg)

theorem top_exists (pick : TieBreak) (heap : List HuffmanNode) (hne : heap ≠ []) :
    ∃ t, top pick heap = .ok t := by
  have hlen : 0 < (tops heap).length := List.length_pos.2 (tops_ne_nil heap hne)
  have hlt : pick heap % (tops heap).length < (tops heap).length := Nat.mod_lt _ hlen
  refine ⟨(tops heap)[pick heap % (tops heap).length], ?_⟩
  unfold top
  rw [List.getElem?_eq_getElem hlt]

theorem top_nil (pick : TieBreak) : top pick [] = .error .emptyTop := by
  simp [top, tops]

theorem top_singleton (pick : TieBreak) (t : HuffmanNode) : top pick [t] = .ok t := by
  obtain ⟨u, hu⟩ := top_exists pick [t] (by simp)
  have := (top_mem pick [t] u hu).1
  simp only [List.mem_singleton] at this
  rw [hu, this]

theorem pop_eq (pick : TieBreak) (heap : List HuffmanNode) (t : HuffmanNode)
    (h : top pick heap = .ok t) : pop pick heap = heap.erase t := by
  simp [pop, h]

/-- One iteration of the merge loop on a queue of two or more nodes: it takes
out a node `l` of least frequency, then a node `r` of least frequency among
the others, and puts back the node that joins them. -/
theorem mergeStep_spec (pick : TieBreak) (heap : List HuffmanNode) (hlen : 2 ≤ heap.length) :
    ∃ l r rest, mergeStep pick heap = .ok (rest ++ [mkMerged l r]) ∧
      heap.Perm (l :: r :: rest) ∧
      (∀ y ∈ r :: rest, l.freq ≤ y.freq) ∧ (∀ y ∈ rest, r.freq ≤ y.freq) := by
  have hne : heap ≠ [] := by
    intro h; rw [h] at hlen; simp at hlen
  obtain ⟨l, hl⟩ := top_exists pick heap hne
  obtain ⟨hlmem, hlmin⟩ := top_mem pick heap l hl
  have hp1 : heap.Perm (l :: heap.erase l) := List.perm_cons_erase hlmem
  have hne1 : heap.erase l ≠ [] := by
    intro h
    have := hp1.length_eq
    rw [h] at this
    simp at this
    omega
  obtain ⟨r, hr⟩ := top_exists pick (heap.erase l) hne1
  obtain ⟨hrmem, hrmin⟩ := top_mem pick (heap.erase l) r hr
  have hp2 : (heap.erase l).Perm (r :: (heap.erase l).erase r) := List.perm_cons_erase hrmem
  refine ⟨l, r, (heap.erase l).erase r, ?_, ?_, ?_, ?_⟩
  · simp [mergeStep, hl, pop_eq pick heap l hl, hr, pop_eq pick _ r hr, push]
  · exact hp1.trans (List.Perm.cons l hp2)
  · intro y hy
    exact hlmin y (hp1.symm.subset (List.mem_cons_of_mem _ (hp2.symm.subset hy)))
  · intro y hy
    exact hrmin y (hp2.symm.subset (List.mem_cons_of_mem _ hy))

/-- Induction over the merge loop: a property of the queue that every
iteration preserves holds of the one-element queue the loop ends with. -/
theorem mergeLoop_induct (pick : TieBreak) (P : List HuffmanNode → Prop)
    (hstep : ∀ heap l r rest, P heap → heap.Perm (l :: r :: rest) →
      (∀ y ∈ r :: rest, l.freq ≤ y.freq) → (∀ y ∈ rest, r.freq ≤ y.freq) →
      P (rest ++ [mkMerged l r])) :
    ∀ (fuel : Nat) (heap : List HuffmanNode), heap.length ≤ fuel + 1 → heap ≠ [] → P heap →
      ∃ root, mergeLoop pick fuel heap = .ok [root] ∧ P [root] := by
  intro fuel
  induction fuel with
  | zero =>
    intro heap hlen hne hP
    match heap, hne, hlen, hP with
    | [x], _, _, hP => exact ⟨x, by simp [mergeLoop], hP⟩
    | _ :: _ :: _, _, hlen, _ => simp at hlen
  | succ n ih =>
    intro heap hlen hne hP
    by_cases h1 : heap.length > 1
    · obtain ⟨l, r, rest, hms, hperm, hl, hr⟩ := mergeStep_spec pick heap h1
      have hlen2 : (rest ++ [mkMerged l r]).length ≤ n + 1 := by
        have := hperm.length_eq
        simp at this ⊢
        omega
      obtain ⟨root, hroot, hP2⟩ :=
        ih (rest ++ [mkMerged l r]) hlen2 (by simp) (hstep heap l r rest hP hperm hl hr)
      refine ⟨root, ?_, hP2⟩
      simp only [mergeLoop, h1, if_true, hms]
      exact hroot
    · match heap, hne, h1, hP with
      | [x], _, _, hP => exact ⟨x, by simp [mergeLoop], hP⟩
      | _ :: _ :: _, _, h1, _ => simp at h1

theorem initHeap_eq (tbl : List (Char × Int)) :
    initHeap tbl = tbl.map (fun p => mkLeaf p.1 p.2) := by
  have key : ∀ (tbl : List (Char × Int)) (acc : List HuffmanNode),
      tbl.foldl (fun heap pair => push heap (mkLeaf pair.1 pair.2)) acc
        = acc ++ tbl.map (fun p => mkLeaf p.1 p.2) := by
    intro tbl
    induction tbl with
    | nil => simp
    | cons p tbl ih =>
      intro acc
      rw [List.foldl_cons, ih]
      simp [push]
  simpa [initHeap] using key tbl []

/-- The builder returns a tree for every non-empty table, and every property
of the queue that the merge step preserves holds of the queue made of that
tree alone. -/
theorem buildTree_induct (pick : TieBreak) (P : List HuffmanNode → Prop)
    (hstep : ∀ heap l r rest, P heap → heap.Perm (l :: r :: rest) →
      (∀ y ∈ r :: rest, l.freq ≤ y.freq) → (∀ y ∈ rest, r.freq ≤ y.freq) →
      P (rest ++ [mkMerged l r]))
    (tbl : List (Char × Int)) (hne : tbl ≠ []) (h0 : P (tbl.map (fun p => mkLeaf p.1 p.2))) :
    ∃ root, buildTree pick tbl = .ok root ∧ P [root] := by
  have hne2 : initHeap tbl ≠ [] := by
    rw [initHeap_eq]
    simpa using hne
  rw [← initHeap_eq] at h0
  obtain ⟨root, hloop, hP⟩ :=
    mergeLoop_induct pick P hstep (initHeap tbl).length (initHeap tbl) (by omega) hne2 h0
  refine ⟨root, ?_, hP⟩
  simp [buildTree, hloop, top_singleton]

/-! ## Shape of the built tree -/

theorem leaves_mkLeaf (c : Char) (n : Int) : leaves (mkLeaf c n) = [(c, n)] := by
  simp [leaves, mkLeaf]

theorem leaves_mkMerged (l r : HuffmanNode) (hl : l ≠ .null) :
    leaves (mkMerged l r) = leaves l ++ leaves r := by
  simp [leaves, mkMerged, hl]

theorem strict_mkMerged (l r : HuffmanNode) (hl : l.strict = true) (hr : r.strict = true) :
    (mkMerged l r).strict = true := by
  simp [mkMerged, HuffmanNode.strict, hl, hr]

theorem isLeaf_mkMerged (l r : HuffmanNode) (hl : l ≠ .null) : (mkMerged l r).isLeaf = false := by
  cases l with
  | null => exact absurd rfl hl
  | node _ _ _ _ => simp [mkMerged, HuffmanNode.isLeaf]

theorem leafSum_mkMerged (l r : HuffmanNode) (hl : l ≠ .null) :
    leafSum (mkMerged l r) = leafSum l + leafSum r := by
  simp [leafSum, leaves_mkMerged l r hl]

theorem heapInv_init (tbl : List (Char × Int)) :
    HeapInv tbl (tbl.map (fun p => mkLeaf p.1 p.2)) := by
  refine ⟨?_, ?_⟩
  · have : (tbl.map (fun p => mkLeaf p.1 p.2)).flatMap leaves = tbl := by
      induction tbl with
      | nil => rfl
      | cons p tbl ih =>
        simp only [List.map_cons, List.flatMap_cons, leaves_mkLeaf, ih]
        rfl
    rw [this]
  · intro t ht
    obtain ⟨p, _, rfl⟩ := List.mem_map.1 ht
    simp [mkLeaf, HuffmanNode.strict]

theorem heapInv_step (tbl : List (Char × Int)) (heap : List HuffmanNode) (l r : HuffmanNode)
    (rest : List HuffmanNode) (hinv : HeapInv tbl heap) (hperm : heap.Perm (l :: r :: rest)) :
    HeapInv tbl (rest ++ [mkMerged l r]) := by
  obtain ⟨hleaves, hstrict⟩ := hinv
  have hlmem : l ∈ heap := hperm.symm.subset (by simp)
  have hrmem : r ∈ heap := hperm.symm.subset (by simp)
  have hl0 : l ≠ .null := strict_ne_null l (hstrict l hlmem)
  refine ⟨?_, ?_⟩
  · have h1 : ((l :: r :: rest).flatMap leaves).Perm tbl :=
      (hperm.flatMap_right leaves).symm.trans hleaves
    refine List.Perm.trans ?_ h1
    simp only [List.flatMap_append, List.flatMap_cons, List.flatMap_nil, List.append_nil,
      leaves_mkMerged l r hl0]
    exact List.perm_append_comm.trans (by rw [List.append_assoc])
  · intro t ht
    rcases List.mem_append.1 ht with ht | ht
    · exact hstrict t (hperm.symm.subset (by simp [ht]))
    · simp only [List.mem_singleton] at ht
      subst ht
      exact strict_mkMerged l r (hstrict l hlmem) (hstrict r hrmem)

/-- For a non-empty table the builder returns a strict tree whose leaves are
the entries of the table. -/
theorem buildTree_shape (pick : TieBreak) (tbl : List (Char × Int)) (hne : tbl ≠ []) :
    ∃ root, buildTree pick tbl = .ok root ∧ (leaves root).Perm tbl ∧ root.strict = true := by
  obtain ⟨root, hb, hinv⟩ := buildTree_induct pick (HeapInv tbl)
    (fun heap l r rest hP hperm _ _ => heapInv_step tbl heap l r rest hP hperm)
    tbl hne (heapInv_init tbl)
  refine ⟨root, hb, ?_, hinv.2 root (by simp)⟩
  simpa using hinv.1

theorem strict_leaves_ne_nil (t : HuffmanNode) (hs : t.strict = true) : leaves t ≠ [] := by
  induction t with
  | null => simp [HuffmanNode.strict] at hs
  | node ch f l r ihl _ =>
    by_cases hleaf : l = .null ∧ r = .null
    · simp [leaves, hleaf]
    · have := strict_children ch f l r hs hleaf
      simp [leaves, hleaf, ihl this.1]

/-- A strict tree with two or more leaves is not a single leaf. -/
theorem isLeaf_false_of_two (t : HuffmanNode) (h2 : 2 ≤ (leaves t).length) :
    t.isLeaf = false := by
  match t, h2 with
  | .null, _ => rfl
  | .node _ _ .null .null, h2 => simp [leaves] at h2
  | .node _ _ (.node _ _ _ _) _, _ => rfl
  | .node _ _ .null (.node _ _ _ _), _ => rfl

/-- A tree with a single leaf that is strict is that leaf. -/
theorem strict_single (t : HuffmanNode) (hs : t.strict = true) (c : Char) (n : Int)
    (h1 : leaves t = [(c, n)]) : t = mkLeaf c n := by
  cases t with
  | null => simp [leaves] at h1
  | node ch f l r =>
    by_cases hleaf : l = .null ∧ r = .null
    · obtain ⟨rfl, rfl⟩ := hleaf
      simp [leaves] at h1
      simp [mkLeaf, h1]
    · have hc := strict_children ch f l r hs hleaf
      have hl := strict_leaves_ne_nil l hc.1
      have hr := strict_leaves_ne_nil r hc.2
      simp only [leaves, hleaf, if_false, List.nil_append] at h1
      have hlen := congrArg List.length h1
      have h3 : 0 < (leaves l).length := List.length_pos.2 hl
      have h4 : 0 < (leaves r).length := List.length_pos.2 hr
      simp at hlen
      omega

/-! ## Optimality: the exchange argument on weight-depth profiles -/

theorem treeDepths_collapse_left (D1 D2 E1 : Multiset Nat) (h1 : Nat)
    (hD1 : D1 = h1 ::ₘ h1 ::ₘ E1) (hpos : 1 ≤ h1) (hmax1 : ∀ d ∈ D1, d ≤ h1)
    (hT1 : TreeDepths ((h1 - 1) ::ₘ E1)) (hT2 : TreeDepths D2) (hmax2 : ∀ d ∈ D2, d ≤ h1) :
    ∃ h E, (D1 + D2).map (fun d => d + 1) = h ::ₘ h ::ₘ E ∧ 1 ≤ h ∧
      (∀ d ∈ (D1 + D2).map (fun d => d + 1), d ≤ h) ∧ TreeDepths ((h - 1) ::ₘ E) := by
  refine ⟨h1 + 1, (E1 + D2).map (fun d => d + 1), ?_, by omega, ?_, ?_⟩
  · subst hD1
    simp [Multiset.cons_add]
  · intro d hd
    obtain ⟨e, he, rfl⟩ := Multiset.mem_map.1 hd
    rcases Multiset.mem_add.1 he with he | he
    · have := hmax1 e he
      omega
    · have := hmax2 e he
      omega
  · have := TreeDepths.node _ _ hT1 hT2
    have h2 : h1 - 1 + 1 = h1 := by omega
    simpa [Multiset.cons_add, h2] using this

/-- A depth multiset of a tree is that of a single leaf, or its greatest depth
occurs twice and joining two leaves of that depth gives a tree again. -/
theorem treeDepths_collapse (D : Multiset Nat) (hT : TreeDepths D) :
    D = {0} ∨ ∃ h E, D = h ::ₘ h ::ₘ E ∧ 1 ≤ h ∧ (∀ d ∈ D, d ≤ h) ∧
      TreeDepths ((h - 1) ::ₘ E) := by
  induction hT with
  | leaf => exact Or.inl rfl
  | node D1 D2 hT1 hT2 ih1 ih2 =>
    right
    rcases ih1 with rfl | ⟨h1, E1, hD1, hpos1, hmax1, hc1⟩
    · rcases ih2 with rfl | ⟨h2, E2, hD2, hpos2, hmax2, hc2⟩
      · refine ⟨1, 0, by decide, le_refl _, by decide, ?_⟩
        simpa using TreeDepths.leaf
      · have := treeDepths_collapse_left D2 {0} E2 h2 hD2 hpos2 hmax2 hc2 TreeDepths.leaf
          (by intro d hd; simp at hd; omega)
        rwa [add_comm] at this
    · rcases ih2 with rfl | ⟨h2, E2, hD2, hpos2, hmax2, hc2⟩
      · exact treeDepths_collapse_left D1 {0} E1 h1 hD1 hpos1 hmax1 hc1 TreeDepths.leaf
          (by intro d hd; simp at hd; omega)
      · by_cases hle : h2 ≤ h1
        · exact treeDepths_collapse_left D1 D2 E1 h1 hD1 hpos1 hmax1 hc1 hT2
            (fun d hd => le_trans (hmax2 d hd) hle)
        · have := treeDepths_collapse_left D2 D1 E2 h2 hD2 hpos2 hmax2 hc2 hT1
            (fun d hd => le_trans (hmax1 d hd) (by omega))
          rwa [add_comm] at this

theorem profCost_cons (p : Int × Nat) (Q : Multiset (Int × Nat)) :
    profCost (p ::ₘ Q) = p.1 * (p.2 : Int) + profCost Q := by
  simp [profCost]

/-- Moving a least weight to a greatest depth does not raise the cost. -/
theorem profile_swap (Q : Multiset (Int × Nat)) (a : Int) (h : Nat)
    (ha : a ∈ Q.map Prod.fst) (hmin : ∀ w ∈ Q.map Prod.fst, a ≤ w)
    (hh : h ∈ Q.map Prod.snd) (hmax : ∀ d ∈ Q.map Prod.snd, d ≤ h) :
    ∃ Q1 : Multiset (Int × Nat), a ::ₘ Q1.map Prod.fst = Q.map Prod.fst ∧
      h ::ₘ Q1.map Prod.snd = Q.map Prod.snd ∧ a * (h : Int) + profCost Q1 ≤ profCost Q := by
  obtain ⟨⟨a2, d⟩, hp, ha2⟩ := Multiset.mem_map.1 ha
  simp only at ha2
  subst ha2
  obtain ⟨Q0, rfl⟩ := Multiset.exists_cons_of_mem hp
  by_cases hd : d = h
  · subst hd
    exact ⟨Q0, by simp, by simp, by simp [profCost_cons]⟩
  · obtain ⟨⟨x, h2⟩, hq, hx⟩ := Multiset.mem_map.1 hh
    simp only at hx
    subst hx
    have hq0 : (x, h2) ∈ Q0 := by
      rcases Multiset.mem_cons.1 hq with heq | hq
      · simp only [Prod.mk.injEq] at heq
        exact absurd heq.2.symm hd
      · exact hq
    obtain ⟨Q00, rfl⟩ := Multiset.exists_cons_of_mem hq0
    refine ⟨(x, d) ::ₘ Q00, by simp, ?_, ?_⟩
    · simp only [Multiset.map_cons]
      rw [Multiset.cons_swap]
    · have hax : a2 ≤ x := hmin x (by simp)
      have hdh : d ≤ h2 := hmax d (by simp)
      have hdh2 : (d : Int) ≤ (h2 : Int) := by exact_mod_cast hdh
      simp only [profCost_cons]
      nlinarith [mul_nonneg (sub_nonneg.2 hax) (sub_nonneg.2 hdh2)]

/-- The exchange step: in a tree profile the two least weights can be joined
into one leaf, which lowers the cost by their sum at least. -/
theorem profile_merge (Q : Multiset (Int × Nat)) (a b : Int) (R : Multiset Int)
    (hw : Q.map Prod.fst = a ::ₘ b ::ₘ R) (ha : ∀ w ∈ b ::ₘ R, a ≤ w) (hb : ∀ w ∈ R, b ≤ w)
    (hT : TreeDepths (Q.map Prod.snd)) :
    ∃ Q2 : Multiset (Int × Nat), TreeDepths (Q2.map Prod.snd) ∧
      Q2.map Prod.fst = (a + b) ::ₘ R ∧ profCost Q2 + (a + b) ≤ profCost Q := by
  rcases treeDepths_collapse _ hT with h0 | ⟨h, E, hD, hpos, hmax, hc⟩
  · have := congrArg Multiset.card h0
    have h2 := congrArg Multiset.card hw
    simp at this h2
    omega
  · obtain ⟨Q1, hf1, hs1, hc1⟩ := profile_swap Q a h (by rw [hw]; simp)
      (by
        intro w hw2
        rw [hw] at hw2
        rcases Multiset.mem_cons.1 hw2 with rfl | hw2
        · exact le_refl _
        · exact ha w hw2)
      (by rw [hD]; simp) hmax
    have hf1b : Q1.map Prod.fst = b ::ₘ R := by
      rw [hw] at hf1
      exact (Multiset.cons_inj_right a).1 hf1
    have hs1b : Q1.map Prod.snd = h ::ₘ E := by
      rw [hD] at hs1
      exact (Multiset.cons_inj_right h).1 hs1
    obtain ⟨Q2, hf2, hs2, hc2⟩ := profile_swap Q1 b h (by rw [hf1b]; simp)
      (by
        intro w hw2
        rw [hf1b] at hw2
        rcases Multiset.mem_cons.1 hw2 with rfl | hw2
        · exact le_refl _
        · exact hb w hw2)
      (by rw [hs1b]; simp)
      (by
        intro d hd
        apply hmax
        rw [hD, ← hs1b]
        exact Multiset.mem_cons_of_mem hd)
    have hf2b : Q2.map Prod.fst = R := by
      rw [hf1b] at hf2
      exact (Multiset.cons_inj_right b).1 hf2
    have hs2b : Q2.map Prod.snd = E := by
      rw [hs1b] at hs2
      exact (Multiset.cons_inj_right h).1 hs2
    refine ⟨(a + b, h - 1) ::ₘ Q2, ?_, ?_, ?_⟩
    · simpa [hs2b] using hc
    · simp [hf2b]
    · simp only [profCost_cons]
      have hh : ((h - 1 : Nat) : Int) = (h : Int) - 1 := by omega
      rw [hh]
      have e : (a + b) * ((h : Int) - 1) + (a + b) = a * (h : Int) + b * (h : Int) := by ring
      linarith

/-! ## Frequencies in the queue when no `int` sum overflows -/

theorem leafSum_mkLeaf (c : Char) (n : Int) : leafSum (mkLeaf c n) = n := by
  rw [leafSum, leaves_mkLeaf]
  simp

/-- In a queue whose leaves are the entries of a table of non-negative
counts, two different trees have non-negative leaf sums that together do not
exceed the sum of the table. -/
theorem leafSum_bounds (tbl : List (Char × Int)) (heap : List HuffmanNode) (l r : HuffmanNode)
    (rest : List HuffmanNode) (hinv : HeapInv tbl heap) (hperm : heap.Perm (l :: r :: rest))
    (hnn : ∀ p ∈ tbl, 0 ≤ p.2) :
    0 ≤ leafSum l ∧ 0 ≤ leafSum r ∧ leafSum l + leafSum r ≤ (tbl.map Prod.snd).sum := by
  have hp : ((l :: r :: rest).flatMap leaves).Perm tbl :=
    (hperm.flatMap_right leaves).symm.trans hinv.1
  have hmem : ∀ t ∈ l :: r :: rest, ∀ p ∈ leaves t, 0 ≤ p.2 := by
    intro t ht p hpt
    exact hnn p (hp.subset (List.mem_flatMap.2 ⟨t, ht, hpt⟩))
  have hnonneg : ∀ t ∈ l :: r :: rest, 0 ≤ leafSum t := by
    intro t ht
    apply List.sum_nonneg
    intro x hx
    obtain ⟨p, hpt, rfl⟩ := List.mem_map.1 hx
    exact hmem t ht p hpt
  have hrest : 0 ≤ ((rest.flatMap leaves).map Prod.snd).sum := by
    apply List.sum_nonneg
    intro x hx
    obtain ⟨p, hpt, rfl⟩ := List.mem_map.1 hx
    obtain ⟨t, ht, hpt2⟩ := List.mem_flatMap.1 hpt
    exact hmem t (by simp [ht]) p hpt2
  have hsum := (hp.map Prod.snd).sum_eq
  simp only [List.flatMap_cons, List.map_append, List.sum_append] at hsum
  have h1 := hnonneg l (by simp)
  have h2 := hnonneg r (by simp)
  simp only [leafSum] at h1 h2 ⊢
  refine ⟨h1, h2, ?_⟩
  omega

theorem freqInv_init (tbl : List (Char × Int)) :
    FreqInv tbl (tbl.map (fun p => mkLeaf p.1 p.2)) := by
  refine ⟨heapInv_init tbl, ?_⟩
  intro t ht
  obtain ⟨p, _, rfl⟩ := List.mem_map.1 ht
  rw [leafSum_mkLeaf]
  rfl

/-- While the sum of the table stays below `2^31`, the `int` sum stored in a
merged node is the true sum of the leaf frequencies below it. -/
theorem freqInv_step (tbl : List (Char × Int)) (hnn : ∀ p ∈ tbl, 0 ≤ p.2)
    (hsum : (tbl.map Prod.snd).sum < 2147483648) (heap : List HuffmanNode) (l r : HuffmanNode)
    (rest : List HuffmanNode) (hinv : FreqInv tbl heap) (hperm : heap.Perm (l :: r :: rest)) :
    FreqInv tbl (rest ++ [mkMerged l r]) ∧ (mkMerged l r).freq = l.freq + r.freq := by
  obtain ⟨hH, hfreq⟩ := hinv
  have hlmem : l ∈ heap := hperm.symm.subset (by simp)
  have hrmem : r ∈ heap := hperm.symm.subset (by simp)
  have hl0 : l ≠ .null := strict_ne_null l (hH.2 l hlmem)
  obtain ⟨b1, b2, b3⟩ := leafSum_bounds tbl heap l r rest hH hperm hnn
  have hm : (mkMerged l r).freq = l.freq + r.freq := by
    have e : (mkMerged l r).freq = wrap32 (l.freq + r.freq) := rfl
    rw [e, hfreq l hlmem, hfreq r hrmem]
    exact wrap32_of_range _ (by omega) (by omega)
  refine ⟨⟨heapInv_step tbl heap l r rest hH hperm, ?_⟩, hm⟩
  intro t ht
  rcases List.mem_append.1 ht with ht | ht
  · exact hfreq t (hperm.symm.subset (by simp [ht]))
  · simp only [List.mem_singleton] at ht
    subst ht
    rw [hm, leafSum_mkMerged l r hl0, hfreq l hlmem, hfreq r hrmem]

/-! ## Optimality: from trees to profiles -/

theorem wplAt_shift (t : HuffmanNode) (d : Nat) :
    wplAt t d = wplAt t 0 + (d : Int) * leafSum t := by
  induction t generalizing d with
  | null => simp [wplAt, leafSum, leaves]
  | node ch f l r ihl ihr =>
    have hl1 := ihl 1
    have hr1 := ihr 1
    by_cases hleaf : l = .null ∧ r = .null
    · obtain ⟨rfl, rfl⟩ := hleaf
      simp [wplAt, leafSum, leaves, mul_comm]
    · have hsum : leafSum (.node ch f l r) = leafSum l + leafSum r := by
        simp [leafSum, leaves, hleaf]
      simp only [wplAt, hleaf, if_false, zero_add]
      rw [ihl (d + 1), ihr (d + 1), hl1, hr1, hsum]
      push_cast
      ring

theorem wpl_mkMerged (l r : HuffmanNode) (hl : l ≠ .null) :
    wpl (mkMerged l r) = wpl l + wpl r + leafSum l + leafSum r := by
  have h1 := wplAt_shift l 1
  have h2 := wplAt_shift r 1
  simp only [wpl, mkMerged, wplAt, hl, false_and, if_false, zero_add]
  simp only [Nat.cast_one, one_mul] at h1 h2
  omega

theorem wpl_mkLeaf (c : Char) (n : Int) : wpl (mkLeaf c n) = 0 := by
  simp [wpl, mkLeaf, wplAt]

/-- Every tree with non-negative leaf frequencies, whatever its shape, is
matched by a profile of a strict tree over the same leaf frequencies that
costs no more. -/
theorem profile_of_tree (u : HuffmanNode) (hu : u ≠ .null) (hnn : ∀ p ∈ leaves u, 0 ≤ p.2) :
    ∃ Q : Multiset (Int × Nat), TreeDepths (Q.map Prod.snd) ∧
      Q.map Prod.fst = (((leaves u).map Prod.snd : List Int) : Multiset Int) ∧
      profCost Q ≤ wpl u := by
  induction u with
  | null => exact absurd rfl hu
  | node ch f l r ihl ihr =>
    have hsumnn : ∀ t : HuffmanNode, (∀ p ∈ leaves t, 0 ≤ p.2) → 0 ≤ leafSum t := by
      intro t ht
      apply List.sum_nonneg
      intro x hx
      obtain ⟨p, hpt, rfl⟩ := List.mem_map.1 hx
      exact ht p hpt
    by_cases hl : l = .null
    · by_cases hr : r = .null
      · subst hl hr
        refine ⟨{(f, 0)}, ?_, ?_, ?_⟩
        · simpa using TreeDepths.leaf
        · simp [leaves]
        · simp [profCost, wpl, wplAt]
      · subst hl
        have hnr : ∀ p ∈ leaves r, 0 ≤ p.2 := by
          intro p hp
          exact hnn p (by simp [leaves, hr, hp])
        obtain ⟨Q, hT, hf, hc⟩ := ihr hr hnr
        refine ⟨Q, hT, ?_, ?_⟩
        · simpa [leaves, hr] using hf
        · have := wplAt_shift r 1
          have h0 := hsumnn r hnr
          simp only [wpl, wplAt, hr, and_false, if_false, zero_add] at hc ⊢
          simp only [Nat.cast_one, one_mul] at this
          omega
    · by_cases hr : r = .null
      · subst hr
        have hnl : ∀ p ∈ leaves l, 0 ≤ p.2 := by
          intro p hp
          exact hnn p (by simp [leaves, hl, hp])
        obtain ⟨Q, hT, hf, hc⟩ := ihl hl hnl
        refine ⟨Q, hT, ?_, ?_⟩
        · simpa [leaves, hl] using hf
        · have := wplAt_shift l 1
          have h0 := hsumnn l hnl
          simp only [wpl, wplAt, hl, false_and, if_false, zero_add, add_zero] at hc ⊢
          simp only [Nat.cast_one, one_mul] at this
          omega
      · have hnl : ∀ p ∈ leaves l, 0 ≤ p.2 := by
          intro p hp
          exact hnn p (by simp [leaves, hl, hp])
        have hnr : ∀ p ∈ leaves r, 0 ≤ p.2 := by
          intro p hp
          exact hnn p (by simp [leaves, hl, hp])
        obtain ⟨Ql, hTl, hfl, hcl⟩ := ihl hl hnl
        obtain ⟨Qr, hTr, hfr, hcr⟩ := ihr hr hnr
        refine ⟨(Ql + Qr).map (fun p => (p.1, p.2 + 1)), ?_, ?_, ?_⟩
        · have := TreeDepths.node _ _ hTl hTr
          simpa [Multiset.map_map, Function.comp_def] using this
        · simp only [Multiset.map_map, Function.comp_def, Multiset.map_add]
          have e1 : Multiset.map (fun x : Int × Nat => x.1) Ql = Ql.map Prod.fst := rfl
          have e2 : Multiset.map (fun x : Int × Nat => x.1) Qr = Qr.map Prod.fst := rfl
          rw [e1, e2, hfl, hfr]
          simp [leaves, hl]
        · have hsl : leafSum l = (Ql.map Prod.fst).sum := by
            rw [hfl]; simp [leafSum]
          have hsr : leafSum r = (Qr.map Prod.fst).sum := by
            rw [hfr]; simp [leafSum]
          have hshift : ∀ Q : Multiset (Int × Nat),
              profCost (Q.map (fun p => (p.1, p.2 + 1))) = profCost Q + (Q.map Prod.fst).sum := by
            intro Q
            induction Q using Multiset.induction_on with
            | empty => simp [profCost]
            | cons p Q ih =>
              simp only [Multiset.map_cons, profCost_cons, ih, Multiset.sum_cons]
              push_cast
              ring
          have hadd : profCost (Ql + Qr) = profCost Ql + profCost Qr := by
            simp [profCost]
          rw [hshift, hadd, Multiset.map_add, Multiset.sum_add, ← hsl, ← hsr]
          have h1 := wplAt_shift l 1
          have h2 := wplAt_shift r 1
          simp only [wpl, wplAt, hl, false_and, if_false, zero_add] at hcl hcr ⊢
          simp only [Nat.cast_one, one_mul] at h1 h2
          omega

theorem optInv_step (tbl : List (Char × Int)) (hnn : ∀ p ∈ tbl, 0 ≤ p.2)
    (hsum : (tbl.map Prod.snd).sum < 2147483648) (K : Int) (heap : List HuffmanNode)
    (l r : HuffmanNode) (rest : List HuffmanNode) (hinv : OptInv tbl K heap)
    (hperm : heap.Perm (l :: r :: rest))
    (hl : ∀ y ∈ r :: rest, l.freq ≤ y.freq) (hr : ∀ y ∈ rest, r.freq ≤ y.freq) :
    OptInv tbl K (rest ++ [mkMerged l r]) := by
  obtain ⟨hF, Q, hT, hf, hc⟩ := hinv
  obtain ⟨hF2, hm⟩ := freqInv_step tbl hnn hsum heap l r rest hF hperm
  refine ⟨hF2, ?_⟩
  have hlmem : l ∈ heap := hperm.symm.subset (by simp)
  have hrmem : r ∈ heap := hperm.symm.subset (by simp)
  have hl0 : l ≠ .null := strict_ne_null l (hF.1.2 l hlmem)
  have hfreqs : ((heap.map HuffmanNode.freq : List Int) : Multiset Int)
      = l.freq ::ₘ r.freq ::ₘ ((rest.map HuffmanNode.freq : List Int) : Multiset Int) := by
    rw [Multiset.coe_eq_coe.2 (hperm.map HuffmanNode.freq)]
    simp
  obtain ⟨Q2, hT2, hf2, hc2⟩ := profile_merge Q l.freq r.freq _ (hf.trans hfreqs)
    (by
      intro w hw
      rcases Multiset.mem_cons.1 hw with rfl | hw
      · exact hl r (by simp)
      · simp only [Multiset.mem_coe, List.mem_map] at hw
        obtain ⟨y, hy, rfl⟩ := hw
        exact hl y (List.mem_cons_of_mem _ hy))
    (by
      intro w hw
      simp only [Multiset.mem_coe, List.mem_map] at hw
      obtain ⟨y, hy, rfl⟩ := hw
      exact hr y hy)
    hT
  refine ⟨Q2, hT2, ?_, ?_⟩
  · rw [hf2]
    rw [List.map_append, List.map_cons, List.map_nil, hm, Multiset.cons_coe,
      Multiset.coe_eq_coe]
    exact (List.perm_append_singleton _ _).symm
  · have hsum2 : (heap.map wpl).sum = wpl l + wpl r + (rest.map wpl).sum := by
      rw [(hperm.map wpl).sum_eq]
      simp [add_assoc]
    have hwm := wpl_mkMerged l r hl0
    have e1 := hF.2 l hlmem
    have e2 := hF.2 r hrmem
    simp only [List.map_append, List.sum_append, List.map_cons, List.map_nil, List.sum_cons,
      List.sum_nil]
    omega

/-- For a non-empty table of non-negative counts whose sum is below `2^31`,
the tree the builder returns costs no more than any tree over the same
multiset of leaf frequencies. -/
theorem buildTree_optimal (pick : TieBreak) (tbl : List (Char × Int)) (hne : tbl ≠ [])
    (hnn : ∀ p ∈ tbl, 0 ≤ p.2) (hsum : (tbl.map Prod.snd).sum < 2147483648) :
    ∃ root, buildTree pick tbl = .ok root ∧ (leaves root).Perm tbl ∧
      ∀ u : HuffmanNode, ((leaves u).map Prod.snd).Perm (tbl.map Prod.snd) →
        wpl root ≤ wpl u := by
  obtain ⟨root, hb, hlv, _⟩ := buildTree_shape pick tbl hne
  refine ⟨root, hb, hlv, ?_⟩
  intro u hu
  have hu0 : u ≠ .null := by
    rintro rfl
    simp [leaves] at hu
    exact hne hu
  have hunn : ∀ p ∈ leaves u, 0 ≤ p.2 := by
    intro p hp
    have : p.2 ∈ tbl.map Prod.snd := hu.subset (List.mem_map.2 ⟨p, hp, rfl⟩)
    obtain ⟨q, hq, hqe⟩ := List.mem_map.1 this
    rw [← hqe]
    exact hnn q hq
  obtain ⟨Q, hT, hf, hc⟩ := profile_of_tree u hu0 hunn
  obtain ⟨root2, hb2, hinv⟩ := buildTree_induct pick (OptInv tbl (wpl u))
    (optInv_step tbl hnn hsum (wpl u)) tbl hne
    (by
      refine ⟨freqInv_init tbl, Q, hT, ?_, ?_⟩
      · rw [hf, Multiset.coe_eq_coe.2 hu]
        simp [List.map_map, Function.comp_def, mkLeaf, HuffmanNode.freq]
      · have : ((tbl.map (fun p => mkLeaf p.1 p.2)).map wpl).sum = 0 := by
          simp [List.map_map, Function.comp_def, wpl_mkLeaf]
        omega)
  rw [hb] at hb2
  simp only [Except.ok.injEq] at hb2
  subst hb2
  obtain ⟨_, Q3, hT3, hf3, hc3⟩ := hinv
  have hQ3 : 0 ≤ profCost Q3 := by
    rcases treeDepths_collapse _ hT3 with h0 | ⟨h, E, hD, _, _, _⟩
    · have hcard := congrArg Multiset.card h0
      simp only [Multiset.card_map, Multiset.card_singleton] at hcard
      obtain ⟨q, rfl⟩ := Multiset.card_eq_one.1 hcard
      simp only [Multiset.map_singleton, Multiset.singleton_inj] at h0
      simp [profCost, h0]
    · have hcard := congrArg Multiset.card hD
      have hcard2 := congrArg Multiset.card hf3
      simp at hcard hcard2
      omega
  simp at hc3
  omega

/-! ## The run of `main` on an arbitrary text -/

theorem countFreq_ne_nil (data : List Char) (hne : data ≠ []) : countFreq data ≠ [] := by
  cases data with
  | nil => exact absurd rfl hne
  | cons d data =>
    intro h
    have := (countFreq_keys (d :: data) d).2 (by simp)
    rw [h] at this
    simp at this

theorem table_ne_nil (data : List Char) (tbl : List (Char × Int)) (hne : data ≠ [])
    (hperm : tbl.Perm (countFreq data)) : tbl ≠ [] := by
  intro h
  subst h
  exact countFreq_ne_nil data hne (List.Perm.nil_eq hperm).symm

theorem two_le_length_of_two_mem {α : Type} (xs : List α) (a b : α) (ha : a ∈ xs) (hb : b ∈ xs)
    (hab : a ≠ b) : 2 ≤ xs.length := by
  match xs, ha, hb with
  | [x], ha, hb =>
    simp only [List.mem_singleton] at ha hb
    exact absurd (ha.trans hb.symm) hab
  | _ :: _ :: _, _, _ => simp

/-- The tree built for a text: it exists, is strict, and its leaves are the
entries of the counted table. -/
theorem buildTree_of_text (pick : TieBreak) (data : List Char) (tbl : List (Char × Int))
    (hne : data ≠ []) (hperm : tbl.Perm (countFreq data)) :
    ∃ root, buildTree pick tbl = .ok root ∧ (leaves root).Perm (countFreq data) ∧
      root.strict = true := by
  obtain ⟨root, hb, hl, hs⟩ := buildTree_shape pick tbl (table_ne_nil data tbl hne hperm)
  exact ⟨root, hb, hl.trans hperm, hs⟩

theorem leaves_keys_nodup (root : HuffmanNode) (data : List Char)
    (hl : (leaves root).Perm (countFreq data)) : ((leaves root).map Prod.fst).Nodup :=
  (hl.map Prod.fst).nodup_iff.2 (countFreq_nodup data)

theorem leaves_keys_mem (root : HuffmanNode) (data : List Char)
    (hl : (leaves root).Perm (countFreq data)) (c : Char) :
    c ∈ (leaves root).map Prod.fst ↔ c ∈ data := by
  rw [(hl.map Prod.fst).mem_iff, countFreq_keys]

theorem codes_cover (root : HuffmanNode) (data : List Char)
    (hl : (leaves root).Perm (countFreq data)) :
    ∀ ch ∈ data, mapFind (generateCodes root [] []) ch ≠ none := by
  intro ch hch
  obtain ⟨x, hx⟩ := generateCodes_find_some root ch
    (by rw [leafPaths_keys]; exact (leaves_keys_mem root data hl ch).2 hch)
  rw [hx]
  simp

theorem two_leaves_of_two_symbols (root : HuffmanNode) (data : List Char)
    (hl : (leaves root).Perm (countFreq data)) (a b : Char) (ha : a ∈ data) (hb : b ∈ data)
    (hab : a ≠ b) : root.isLeaf = false := by
  apply isLeaf_false_of_two
  have := two_le_length_of_two_mem ((leaves root).map Prod.fst) a b
    ((leaves_keys_mem root data hl a).2 ha) ((leaves_keys_mem root data hl b).2 hb) hab
  simpa using this

/-- Encoding and decoding over a strict tree that is not a single leaf. -/
theorem decode_encode_inner (root : HuffmanNode) (hs : root.strict = true)
    (hnl : root.isLeaf = false) (data : List Char)
    (hcov : ∀ ch ∈ data, mapFind (generateCodes root [] []) ch ≠ none) :
    encode data (generateCodes root [] []) = .ok (concatCodes (generateCodes root [] []) data) ∧
      decode (concatCodes (generateCodes root [] []) data) root = .ok data := by
  refine ⟨encode_ok _ data hcov, ?_⟩
  have := decodeLoop_concat root hs hnl (generateCodes root [] [])
    (generateCodes_find_mem root) data hcov [] []
  simpa [decode, decodeLoop] using this

/-- Decoding the concatenated codes with the last bit taken away. -/
theorem decode_dropLast_inner (root : HuffmanNode) (hs : root.strict = true)
    (hnl : root.isLeaf = false) (data : List Char) (hne : data ≠ [])
    (hcov : ∀ ch ∈ data, mapFind (generateCodes root [] []) ch ≠ none) :
    decode (concatCodes (generateCodes root [] []) data).dropLast root = .ok data.dropLast := by
  have hsplit := List.dropLast_append_getLast hne
  have hz : data.getLast hne ∈ data := List.getLast_mem hne
  cases hf : mapFind (generateCodes root [] []) (data.getLast hne) with
  | none => exact absurd hf (hcov _ hz)
  | some code =>
    have hmem := generateCodes_find_mem root _ code hf
    have hcne : code ≠ [] := leafPaths_ne_nil root hnl _ code hmem
    have hcc : concatCodes (generateCodes root [] []) data
        = concatCodes (generateCodes root [] []) data.dropLast ++ code := by
      conv_lhs => rw [← hsplit]
      rw [concatCodes_append]
      simp [concatCodes, hf]
    rw [hcc, List.dropLast_append_of_ne_nil _ hcne]
    have hcov2 : ∀ ch ∈ data.dropLast, mapFind (generateCodes root [] []) ch ≠ none :=
      fun ch hch => hcov ch (List.mem_of_mem_dropLast hch)
    have h1 := decodeLoop_concat root hs hnl (generateCodes root [] [])
      (generateCodes_find_mem root) data.dropLast hcov2 code.dropLast []
    have h2 := decodeLoop_cut root root hs _ code ([] ++ data.dropLast) hnl hmem
    rw [decode, h1, h2]
    simp

/-! ## Encoded length -/

theorem buildTree_single (pick : TieBreak) (c : Char) (n : Int) :
    buildTree pick [(c, n)] = .ok (mkLeaf c n) := by
  simp [buildTree, initHeap, push, mergeLoop, top_singleton]

/-- A text with two or more different symbols is encoded and decoded back to
itself, for every tie order of the queue and every iteration order of the
frequency table. -/
theorem roundTrip_two_symbols (pick : TieBreak) (data : List Char) (tbl : List (Char × Int))
    (a b : Char) (ha : a ∈ data) (hb : b ∈ data) (hab : a ≠ b)
    (hperm : tbl.Perm (countFreq data)) : roundTrip pick tbl data = .ok data := by
  obtain ⟨root, hbuild, hl, hs⟩ :=
    buildTree_of_text pick data tbl (List.ne_nil_of_mem ha) hperm
  have hnl := two_leaves_of_two_symbols root data hl a b ha hb hab
  obtain ⟨henc, hdec⟩ := decode_encode_inner root hs hnl data (codes_cover root data hl)
  simp [roundTrip, hbuild, henc, hdec]

/-- C1 (round-trip law), at the failing input `"aaaa"`: the tree is the single
leaf, the code of `a` is empty, the encoded string is empty and `decode`
returns the empty string, not `"aaaa"`. -/
theorem C1_round_trip_fails_on_single_symbol (pick : TieBreak) :
    roundTrip pick (countFreq ['a', 'a', 'a', 'a']) ['a', 'a', 'a', 'a'] = .ok [] := by
  have h : countFreq ['a', 'a', 'a', 'a'] = [('a', 4)] := by decide
  rw [h, roundTrip, buildTree_single]
  rfl

/-- C2 (optimality) fails when an `int` sum overflows: for the table that
gives each of `a`, `b`, `c`, `d` the count 1200000000, the sum of the first
two nodes merged wraps to a negative number, the merged node is taken out
first again, and the loop builds a chain, whose weighted path length is
greater than that of the balanced tree over the same four leaves. -/
theorem C2_overflow_not_optimal :
    buildTree (fun _ => 0)
        [('a', 1200000000), ('b', 1200000000), ('c', 1200000000), ('d', 1200000000)]
      = .ok (mkMerged (mkMerged (mkMerged (mkLeaf 'a' 1200000000) (mkLeaf 'b' 1200000000))
          (mkLeaf 'c' 1200000000)) (mkLeaf 'd' 1200000000)) ∧
    ((leaves (mkMerged (mkMerged (mkLeaf 'a' 1200000000) (mkLeaf 'b' 1200000000))
        (mkMerged (mkLeaf 'c' 1200000000) (mkLeaf 'd' 1200000000)))).map Prod.snd).Perm
      ([('a', 1200000000), ('b', 1200000000), ('c', 1200000000), ('d', 1200000000)].map
        Prod.snd) ∧
    wpl (mkMerged (mkMerged (mkLeaf 'a' 1200000000) (mkLeaf 'b' 1200000000))
        (mkMerged (mkLeaf 'c' 1200000000) (mkLeaf 'd' 1200000000)))
      < wpl (mkMerged (mkMerged (mkMerged (mkLeaf 'a' 1200000000) (mkLeaf 'b' 1200000000))
          (mkLeaf 'c' 1200000000)) (mkLeaf 'd' 1200000000)) := by
  refine ⟨by decide, ?_, by decide⟩
  exact List.Perm.refl _

/-- C2 (optimality) as amended: for every non-empty frequency table of
non-negative counts whose sum is less than `2^31`, and every tie order of the
priority queue, the builder returns a tree whose leaves are the entries of
the table and whose weighted path length is at most that of every tree whose
leaves carry the same multiset of frequencies. -/
theorem C2_optimality (pick : TieBreak) (tbl : List (Char × Int)) (hne : tbl ≠ [])
    (hnn : ∀ p ∈ tbl, 0 ≤ p.2) (hsum : (tbl.map Prod.snd).sum < 2147483648) :
    ∃ root, buildTree pick tbl = .ok root ∧ (leaves root).Perm tbl ∧
      ∀ u : HuffmanNode, ((leaves u).map Prod.snd).Perm (tbl.map Prod.snd) →
        wpl root ≤ wpl u :=
  buildTree_optimal pick tbl hne hnn hsum

theorem C2_optimality_witness :
    [('a', (1 : Int)), ('b', 2), ('c', 2)] ≠ [] ∧
    (∀ p ∈ [('a', (1 : Int)), ('b', 2), ('c', 2)], 0 ≤ p.2) ∧
    ([('a', (1 : Int)), ('b', 2), ('c', 2)].map Prod.snd).sum < 2147483648 ∧
    ∃ root, buildTree (fun _ => 0) [('a', 1), ('b', 2), ('c', 2)] = .ok root ∧
      (leaves root).Perm [('a', 1), ('b', 2), ('c', 2)] ∧
      ∀ u : HuffmanNode,
        ((leaves u).map Prod.snd).Perm ([('a', (1 : Int)), ('b', 2), ('c', 2)].map Prod.snd) →
        wpl root ≤ wpl u :=
  ⟨by decide, by decide, by decide,
    C2_optimality (fun _ => 0) [('a', 1), ('b', 2), ('c', 2)] (by decide) (by decide)
      (by decide)⟩

/-- C3 (prefix-free property): for every non-empty input, the builder returns
a tree, and in the code table generated from it the codes of two different
symbols are such that neither is an initial segment of the other. -/
theorem C3_prefix_free (pick : TieBreak) (data : List Char) (tbl : List (Char × Int))
    (hne : data ≠ []) (hperm : tbl.Perm (countFreq data)) :
    ∃ root, buildTree pick tbl = .ok root ∧
      ∀ (a b : Char) (x y : List Char), a ≠ b →
        mapFind (generateCodes root [] []) a = some x →
        mapFind (generateCodes root [] []) b = some y → ¬ x <+: y ∧ ¬ y <+: x := by
  obtain ⟨root, hbuild, _⟩ := buildTree_of_text pick data tbl hne hperm
  refine ⟨root, hbuild, ?_⟩
  intro a b x y hab hx hy
  have hxm := generateCodes_find_mem root a x hx
  have hym := generateCodes_find_mem root b y hy
  have hsymm : Symmetric (fun p q : Char × List Char => ¬ p.2 <+: q.2 ∧ ¬ q.2 <+: p.2) :=
    fun p q h => ⟨h.2, h.1⟩
  have hne2 : (a, x) ≠ (b, y) := by
    intro h
    simp only [Prod.mk.injEq] at h
    exact hab h.1
  exact (leafPaths_pairwise root).forall hsymm hxm hym hne2

theorem C3_prefix_free_witness :
    ['a', 'b', 'a', 'c'] ≠ [] ∧ (countFreq ['a', 'b', 'a', 'c']).Perm (countFreq ['a', 'b', 'a', 'c']) ∧
    ∃ root, buildTree (fun _ => 0) (countFreq ['a', 'b', 'a', 'c']) = .ok root ∧
      ∀ (a b : Char) (x y : List Char), a ≠ b →
        mapFind (generateCodes root [] []) a = some x →
        mapFind (generateCodes root [] []) b = some y → ¬ x <+: y ∧ ¬ y <+: x :=
  ⟨by decide, List.Perm.refl _,
    C3_prefix_free (fun _ => 0) ['a', 'b', 'a', 'c'] _ (by decide) (List.Perm.refl _)⟩

/-- C4 (malformed input rejection) fails: for the text `"ab"` the encoding is
`"01"`, and `decode` of `"0"`, the encoding without its last bit, returns the
string `"a"` and reports no failure. -/
theorem C4_truncated_not_rejected :
    buildTree (fun _ => 0) (countFreq ['a', 'b']) = .ok (mkMerged (mkLeaf 'a' 1) (mkLeaf 'b' 1)) ∧
    encode ['a', 'b'] (generateCodes (mkMerged (mkLeaf 'a' 1) (mkLeaf 'b' 1)) [] [])
      = .ok ['0', '1'] ∧
    decode (['0', '1'].dropLast) (mkMerged (mkLeaf 'a' 1) (mkLeaf 'b' 1)) = .ok ['a'] := by
  decide

/-- C4 as amended: for every input with two or more different symbols,
decoding its encoding with the last bit taken away reports no failure and
returns the input without its last symbol. -/
theorem C4_truncated_decodes_silently (pick : TieBreak) (data : List Char)
    (tbl : List (Char × Int)) (a b : Char) (ha : a ∈ data) (hb : b ∈ data) (hab : a ≠ b)
    (hperm : tbl.Perm (countFreq data)) :
    ∃ root enc, buildTree pick tbl = .ok root ∧
      encode data (generateCodes root [] []) = .ok enc ∧
      decode enc.dropLast root = .ok data.dropLast := by
  have hne : data ≠ [] := List.ne_nil_of_mem ha
  obtain ⟨root, hbuild, hl, hs⟩ := buildTree_of_text pick data tbl hne hperm
  have hnl := two_leaves_of_two_symbols root data hl a b ha hb hab
  have hcov := codes_cover root data hl
  exact ⟨root, _, hbuild, (decode_encode_inner root hs hnl data hcov).1,
    decode_dropLast_inner root hs hnl data hne hcov⟩

theorem C4_truncated_decodes_silently_witness :
    'a' ∈ ['a', 'b', 'b'] ∧ 'b' ∈ ['a', 'b', 'b'] ∧ 'a' ≠ 'b' ∧
    (countFreq ['a', 'b', 'b']).Perm (countFreq ['a', 'b', 'b']) ∧
    ∃ root enc, buildTree (fun _ => 0) (countFreq ['a', 'b', 'b']) = .ok root ∧
      encode ['a', 'b', 'b'] (generateCodes root [] []) = .ok enc ∧
      decode enc.dropLast root = .ok (['a', 'b', 'b'].dropLast) :=
  ⟨by decide, by decide, by decide, List.Perm.refl _,
    C4_truncated_decodes_silently (fun _ => 0) ['a', 'b', 'b'] _ 'a' 'b' (by decide) (by decide)
      (by decide) (List.Perm.refl _)⟩

/-- C5 (every code is non-empty), at the failing input `"aaaa"`: the built
tree is the single leaf of `a` and `generateCodes` gives `a` the empty
string as its code. -/
theorem C5_single_symbol_code_is_empty (pick : TieBreak) :
    buildTree pick (countFreq ['a', 'a', 'a', 'a']) = .ok (mkLeaf 'a' 4) ∧
    mapFind (generateCodes (mkLeaf 'a' 4) [] []) 'a' = some [] := by
  have h : countFreq ['a', 'a', 'a', 'a'] = [('a', 4)] := by decide
  rw [h, buildTree_single]
  exact ⟨rfl, by decide⟩

/-- C7 (encoder error contract): `encode` fails, with `std::out_of_range`,
exactly when some character of `data` has no entry in `codes`; otherwise it
returns the concatenation, in order, of the codes of the characters. -/
theorem C7_encode_contract (data : List Char) (codes : List (Char × List Char)) :
    encode data codes =
      if ∃ ch ∈ data, mapFind codes ch = none then .error .outOfRange
      else .ok (data.flatMap (fun ch => codeOf codes ch)) := by
  by_cases h : ∃ ch ∈ data, mapFind codes ch = none
  · simp only [h, if_true]
    exact encodeLoop_error codes data [] h
  · simp only [h, if_false]
    have h2 : ∀ ch ∈ data, mapFind codes ch ≠ none := by
      intro ch hch hn
      exact h ⟨ch, hch, hn⟩
    exact encode_ok codes data h2

/-- C9 (tree leaves): for every non-empty frequency table (a map, so with
distinct keys) the builder returns a tree whose leaves are exactly the
entries of the table, each symbol on one leaf only. -/
theorem C9_tree_leaves (pick : TieBreak) (tbl : List (Char × Int)) (hne : tbl ≠ [])
    (hnd : (tbl.map Prod.fst).Nodup) :
    ∃ root, buildTree pick tbl = .ok root ∧ (leaves root).Perm tbl ∧
      ((leaves root).map Prod.fst).Nodup := by
  obtain ⟨root, hbuild, hl, _⟩ := buildTree_shape pick tbl hne
  exact ⟨root, hbuild, hl, (hl.map Prod.fst).nodup_iff.2 hnd⟩

theorem C9_tree_leaves_witness :
    [('a', (4 : Int)), ('b', 2), ('c', 1)] ≠ [] ∧
    ([('a', (4 : Int)), ('b', 2), ('c', 1)].map Prod.fst).Nodup ∧
    ∃ root, buildTree (fun _ => 0) [('a', 4), ('b', 2), ('c', 1)] = .ok root ∧
      (leaves root).Perm [('a', 4), ('b', 2), ('c', 1)] ∧
      ((leaves root).map Prod.fst).Nodup :=
  ⟨by decide, by decide,
    C9_tree_leaves (fun _ => 0) [('a', 4), ('b', 2), ('c', 1)] (by decide) (by decide)⟩

/-- C10 (frequency counter) fails when the `int` counter overflows: for the
text of `2^31` characters `a`, the character occurs `2^31` times and the
table holds `-2^31` for it. -/
theorem C10_counter_overflows :
    (List.replicate 2147483648 'a').count 'a' = 2147483648 ∧
    mapFind (countFreq (List.replicate 2147483648 'a')) 'a' = some (-2147483648) := by
  have hc : (List.replicate 2147483648 'a').count 'a' = 2147483648 :=
    List.count_replicate_self 'a' 2147483648
  have hm : 'a' ∈ List.replicate 2147483648 'a' :=
    List.mem_replicate.2 ⟨by decide, rfl⟩
  refine ⟨hc, ?_⟩
  rw [countFreq_find, if_pos hm, hc]
  decide

/-- C10 (frequency counter) as amended: for every input string in which no
character occurs `2^31` times or more, the counted table maps every
character of the input to its number of occurrences, has no entry for any
other character, has one entry per character, and is empty for the empty
input. -/
theorem C10_frequency_counter (data : List Char) (hb : ∀ c, data.count c < 2147483648) :
    (∀ c, mapFind (countFreq data) c
      = if c ∈ data then some ((data.count c : Nat) : Int) else none) ∧
    (∀ c n, (c, n) ∈ countFreq data ↔ c ∈ data ∧ n = ((data.count c : Nat) : Int)) ∧
    ((countFreq data).map Prod.fst).Nodup ∧ countFreq [] = [] := by
  have hw : ∀ c, wrap32 ((data.count c : Nat) : Int) = ((data.count c : Nat) : Int) := by
    intro c
    have := hb c
    exact wrap32_of_range _ (by omega) (by omega)
  refine ⟨?_, ?_, countFreq_nodup data, rfl⟩
  · intro c
    rw [countFreq_find, hw]
  · intro c n
    rw [countFreq_mem, hw]

theorem C10_frequency_counter_witness :
    (∀ c, (['a', 'b', 'a'] : List Char).count c < 2147483648) ∧
    ((∀ c, mapFind (countFreq ['a', 'b', 'a']) c
      = if c ∈ ['a', 'b', 'a'] then some (((['a', 'b', 'a'] : List Char).count c : Nat) : Int)
        else none) ∧
    (∀ c n, (c, n) ∈ countFreq ['a', 'b', 'a'] ↔
      c ∈ ['a', 'b', 'a'] ∧ n = (((['a', 'b', 'a'] : List Char).count c : Nat) : Int)) ∧
    ((countFreq ['a', 'b', 'a']).map Prod.fst).Nodup ∧ countFreq [] = []) :=
  ⟨fun c => lt_of_le_of_lt (List.count_le_length c ['a', 'b', 'a']) (by decide),
    C10_frequency_counter ['a', 'b', 'a']
      (fun c => lt_of_le_of_lt (List.count_le_length c ['a', 'b', 'a']) (by decide))⟩

/-! ## Enumerating the tie orders -/

theorem tops_perm_mem (h1 h2 : List HuffmanNode) (hp : h1.Perm h2) (t : HuffmanNode) :
    t ∈ tops h1 ↔ t ∈ tops h2 := by
  rw [mem_tops, mem_tops, hp.mem_iff]
  constructor
  · rintro ⟨hm, hmin⟩
    exact ⟨hm, fun y hy => hmin y (hp.mem_iff.2 hy)⟩
  · rintro ⟨hm, hmin⟩
    exact ⟨hm, fun y hy => hmin y (hp.mem_iff.1 hy)⟩

theorem allRoots_perm (fuel : Nat) : ∀ (h1 h2 : List HuffmanNode), h1.Perm h2 →
    ∀ root, root ∈ allRoots fuel h1 → root ∈ allRoots fuel h2 := by
  induction fuel with
  | zero =>
    intro h1 h2 hp root hr
    have hlen := hp.length_eq
    by_cases hl : h1.length > 1
    · simp [allRoots, hl] at hr
    · have hl2 : ¬ h2.length > 1 := by omega
      simp only [allRoots, hl, if_false] at hr
      simp only [allRoots, hl2, if_false]
      exact (tops_perm_mem h1 h2 hp root).1 hr
  | succ n ih =>
    intro h1 h2 hp root hr
    have hlen := hp.length_eq
    by_cases hl : h1.length > 1
    · have hl2 : h2.length > 1 := by omega
      simp only [allRoots, hl, if_true, List.mem_flatMap] at hr
      simp only [allRoots, hl2, if_true, List.mem_flatMap]
      obtain ⟨l, hlm, r, hrm, hroot⟩ := hr
      have hp1 : (h1.erase l).Perm (h2.erase l) := hp.erase l
      have hp2 : ((h1.erase l).erase r).Perm ((h2.erase l).erase r) := hp1.erase r
      refine ⟨l, (tops_perm_mem h1 h2 hp l).1 hlm, r,
        (tops_perm_mem _ _ hp1 r).1 hrm, ?_⟩
      exact ih _ _ (List.Perm.append_right _ hp2) root hroot
    · have hl2 : ¬ h2.length > 1 := by omega
      simp only [allRoots, hl, if_false] at hr
      simp only [allRoots, hl2, if_false]
      exact (tops_perm_mem h1 h2 hp root).1 hr

theorem top_mem_tops (pick : TieBreak) (heap : List HuffmanNode) (t : HuffmanNode)
    (h : top pick heap = .ok t) : t ∈ tops heap :=
  (mem_tops heap t).2 (top_mem pick heap t h)

theorem mergeLoop_mem_allRoots (pick : TieBreak) (fuel : Nat) :
    ∀ (heap out : List HuffmanNode) (root : HuffmanNode), mergeLoop pick fuel heap = .ok out →
      top pick out = .ok root → root ∈ allRoots fuel heap := by
  induction fuel with
  | zero =>
    intro heap out root hloop htop
    by_cases hl : heap.length > 1
    · simp [mergeLoop, hl] at hloop
    · simp only [mergeLoop, hl, if_false, Except.ok.injEq] at hloop
      subst hloop
      simp only [allRoots, hl, if_false]
      exact top_mem_tops pick heap root htop
  | succ n ih =>
    intro heap out root hloop htop
    by_cases hl : heap.length > 1
    · simp only [mergeLoop, hl, if_true] at hloop
      simp only [allRoots, hl, if_true, List.mem_flatMap]
      cases hl1 : top pick heap with
      | error e => simp [mergeStep, hl1] at hloop
      | ok l =>
        have hpop1 := pop_eq pick heap l hl1
        cases hr1 : top pick (heap.erase l) with
        | error e => simp [mergeStep, hl1, hpop1, hr1] at hloop
        | ok r =>
          have hpop2 := pop_eq pick (heap.erase l) r hr1
          simp only [mergeStep, hl1, hpop1, hr1, hpop2] at hloop
          exact ⟨l, top_mem_tops pick heap l hl1, r, top_mem_tops pick _ r hr1,
            ih _ out root hloop htop⟩
    · simp only [mergeLoop, hl, if_false, Except.ok.injEq] at hloop
      subst hloop
      simp only [allRoots, hl, if_false]
      exact top_mem_tops pick heap root htop

/-- Every tree the builder returns is among the enumerated ones, also when
the table is iterated in another order. -/
theorem buildTree_mem_allRoots (pick : TieBreak) (tbl tbl2 : List (Char × Int))
    (hperm : tbl.Perm tbl2) (root : HuffmanNode) (hb : buildTree pick tbl = .ok root) :
    root ∈ allRoots tbl2.length (initHeap tbl2) := by
  unfold buildTree at hb
  cases hloop : mergeLoop pick (initHeap tbl).length (initHeap tbl) with
  | error e => simp [hloop] at hb
  | ok out =>
    simp only [hloop] at hb
    have h1 := mergeLoop_mem_allRoots pick _ _ out root hloop hb
    have hlen : (initHeap tbl).length = tbl2.length := by
      rw [initHeap_eq, List.length_map, hperm.length_eq]
    rw [hlen] at h1
    refine allRoots_perm _ _ _ ?_ root h1
    rw [initHeap_eq, initHeap_eq]
    exact hperm.map _

/-- C6 (concrete scenario): on the input `"abacabad"`, for every tie order of
the queue and every iteration order of the frequency table, the code of `a`
has length 1, the codes of `c` and `d` have length 3, and decoding the
encoding gives `"abacabad"` back. -/
theorem C6_abacabad (pick : TieBreak) (tbl : List (Char × Int))
    (hperm : tbl.Perm (countFreq ['a', 'b', 'a', 'c', 'a', 'b', 'a', 'd'])) :
    countFreq ['a', 'b', 'a', 'c', 'a', 'b', 'a', 'd']
      = [('a', 4), ('b', 2), ('c', 1), ('d', 1)] ∧
    ∃ root enc, buildTree pick tbl = .ok root ∧
      (mapFind (generateCodes root [] []) 'a').map List.length = some 1 ∧
      (mapFind (generateCodes root [] []) 'c').map List.length = some 3 ∧
      (mapFind (generateCodes root [] []) 'd').map List.length = some 3 ∧
      encode ['a', 'b', 'a', 'c', 'a', 'b', 'a', 'd'] (generateCodes root [] []) = .ok enc ∧
      decode enc root = .ok ['a', 'b', 'a', 'c', 'a', 'b', 'a', 'd'] := by
  refine ⟨by decide, ?_⟩
  obtain ⟨root, hbuild, hl, hs⟩ :=
    buildTree_of_text pick ['a', 'b', 'a', 'c', 'a', 'b', 'a', 'd'] tbl (by decide) hperm
  have hnl := two_leaves_of_two_symbols root _ hl 'a' 'b' (by decide) (by decide) (by decide)
  obtain ⟨henc, hdec⟩ := decode_encode_inner root hs hnl _ (codes_cover root _ hl)
  have hmem := buildTree_mem_allRoots pick tbl _ hperm root hbuild
  have hall : ∀ t ∈ allRoots (countFreq ['a', 'b', 'a', 'c', 'a', 'b', 'a', 'd']).length
      (initHeap (countFreq ['a', 'b', 'a', 'c', 'a', 'b', 'a', 'd'])),
      (mapFind (generateCodes t [] []) 'a').map List.length = some 1 ∧
      (mapFind (generateCodes t [] []) 'c').map List.length = some 3 ∧
      (mapFind (generateCodes t [] []) 'd').map List.length = some 3 := by
    decide
  obtain ⟨h1, h2, h3⟩ := hall root hmem
  exact ⟨root, _, hbuild, h1, h2, h3, henc, hdec⟩

theorem C6_abacabad_witness :
    (countFreq ['a', 'b', 'a', 'c', 'a', 'b', 'a', 'd']).reverse.Perm
      (countFreq ['a', 'b', 'a', 'c', 'a', 'b', 'a', 'd']) ∧
    (countFreq ['a', 'b', 'a', 'c', 'a', 'b', 'a', 'd']
      = [('a', 4), ('b', 2), ('c', 1), ('d', 1)] ∧
    ∃ root enc, buildTree (fun _ => 1)
        (countFreq ['a', 'b', 'a', 'c', 'a', 'b', 'a', 'd']).reverse = .ok root ∧
      (mapFind (generateCodes root [] []) 'a').map List.length = some 1 ∧
      (mapFind (generateCodes root [] []) 'c').map List.length = some 3 ∧
      (mapFind (generateCodes root [] []) 'd').map List.length = some 3 ∧
      encode ['a', 'b', 'a', 'c', 'a', 'b', 'a', 'd'] (generateCodes root [] []) = .ok enc ∧
      decode enc root = .ok ['a', 'b', 'a', 'c', 'a', 'b', 'a', 'd']) :=
  ⟨List.reverse_perm _, C6_abacabad (fun _ => 1) _ (List.reverse_perm _)⟩

/-! ## Claims on errors: empty input, empty bit-string -/

/-- C11 (EmptyInput) fails: on the empty input the run ends in a fault that is
not reported to the caller. -/
theorem C11_empty_input_not_reported :
    ¬ ∃ e, buildTree (fun _ => 0) (countFreq []) = .error e ∧ e.reported = true := by
  rintro ⟨e, he, hr⟩
  have h : buildTree (fun _ => 0) (countFreq []) = .error .emptyTop := by decide
  rw [h] at he
  simp only [Except.error.injEq] at he
  subst he
  simp [Fault.reported] at hr

/-- C11 as amended: on the empty input the table and the queue are empty, the
merge loop makes no iteration, and `heap.top()` is evaluated on the empty
queue, which is undefined behaviour: no tree is built and no error is
reported to the caller. -/
theorem C11_empty_input_undefined (pick : TieBreak) :
    countFreq [] = [] ∧ initHeap [] = [] ∧ mergeLoop pick 0 [] = .ok [] ∧
    buildTree pick (countFreq []) = .error .emptyTop ∧ Fault.reported .emptyTop = false := by
  refine ⟨rfl, rfl, rfl, ?_, rfl⟩
  have h : countFreq [] = [] := rfl
  rw [h]
  simp [buildTree, initHeap, mergeLoop, top_nil]

/-- C12 (empty bit-string) fails: against the tree with the two leaves `a` and
`b`, `decode` of the empty bit-string returns the empty string and signals
nothing. -/
theorem C12_empty_bits_not_rejected :
    2 ≤ (leaves (mkMerged (mkLeaf 'a' 1) (mkLeaf 'b' 1))).length ∧
    decode [] (mkMerged (mkLeaf 'a' 1) (mkLeaf 'b' 1)) = .ok [] := by
  decide

/-- C12 as amended: for every tree, with two or more leaves or not, `decode`
of the empty bit-string returns the empty string and signals no failure. -/
theorem C12_empty_bits_decode_empty (root : HuffmanNode) : decode [] root = .ok [] := rfl

/-! ## Shape of the built tree: strictness, height, aggregate frequencies -/

theorem dedup_perm_keys (data : List Char) :
    data.dedup.Perm ((countFreq data).map Prod.fst) := by
  apply (List.perm_ext_iff_of_nodup (List.nodup_dedup data) (countFreq_nodup data)).2
  intro c
  rw [List.mem_dedup, countFreq_keys]

theorem leaves_length_of_text (root : HuffmanNode) (data : List Char)
    (hl : (leaves root).Perm (countFreq data)) : (leaves root).length = data.dedup.length := by
  rw [hl.length_eq, (dedup_perm_keys data).length_eq, List.length_map]

theorem height_pos_of_inner (t : HuffmanNode) (hs : t.strict = true) (hnl : t.isLeaf = false) :
    1 ≤ height t := by
  cases t with
  | null => simp [HuffmanNode.strict] at hs
  | node ch f l r =>
    have hint : ¬ (l = .null ∧ r = .null) := by
      rintro ⟨rfl, rfl⟩
      simp [HuffmanNode.isLeaf] at hnl
    simp [height, hint]

/-- C13 (leaf invariant and shape): for every non-empty input the built tree
is strict, that is every node has no child or two children; it has height at
least 1 when the input has more than one distinct symbol, and is a single
leaf, of height 0 and without internal node, when the input has exactly one
distinct symbol. -/
theorem C13_shape (pick : TieBreak) (data : List Char) (tbl : List (Char × Int))
    (hne : data ≠ []) (hperm : tbl.Perm (countFreq data)) :
    ∃ root, buildTree pick tbl = .ok root ∧ root.strict = true ∧
      (2 ≤ data.dedup.length → 1 ≤ height root) ∧
      (data.dedup.length = 1 →
        root.isLeaf = true ∧ height root = 0 ∧ internalCount root = 0) := by
  obtain ⟨root, hbuild, hl, hs⟩ := buildTree_of_text pick data tbl hne hperm
  have hlen := leaves_length_of_text root data hl
  refine ⟨root, hbuild, hs, ?_, ?_⟩
  · intro h2
    exact height_pos_of_inner root hs (isLeaf_false_of_two root (by omega))
  · intro h1
    rw [← hlen] at h1
    obtain ⟨p, hp⟩ := List.length_eq_one.1 h1
    obtain ⟨c, n⟩ := p
    have := strict_single root hs c n hp
    subst this
    simp [mkLeaf, HuffmanNode.isLeaf, height, internalCount]

theorem C13_shape_witness :
    ['a', 'b', 'a'] ≠ [] ∧ (countFreq ['a', 'b', 'a']).Perm (countFreq ['a', 'b', 'a']) ∧
    ∃ root, buildTree (fun _ => 0) (countFreq ['a', 'b', 'a']) = .ok root ∧
      root.strict = true ∧
      (2 ≤ (['a', 'b', 'a'] : List Char).dedup.length → 1 ≤ height root) ∧
      ((['a', 'b', 'a'] : List Char).dedup.length = 1 →
        root.isLeaf = true ∧ height root = 0 ∧ internalCount root = 0) :=
  ⟨by decide, List.Perm.refl _,
    C13_shape (fun _ => 0) ['a', 'b', 'a'] _ (by decide) (List.Perm.refl _)⟩

theorem cast_sum_map (l : List Char) (f : Char → Nat) :
    (((l.map f).sum : Nat) : Int) = (l.map (fun c => ((f c : Nat) : Int))).sum := by
  induction l with
  | nil => simp
  | cons a l ih => simp [ih]

/-- When no character occurs `2^31` times or more, the counts of the table
add up to the length of the text. -/
theorem countFreq_sum (data : List Char) (hb : ∀ c, data.count c < 2147483648) :
    ((countFreq data).map Prod.snd).sum = (data.length : Int) := by
  have h1 : (countFreq data).map Prod.snd
      = ((countFreq data).map Prod.fst).map (fun c => ((data.count c : Nat) : Int)) := by
    rw [List.map_map]
    apply List.map_congr_left
    intro p hp
    have h := ((countFreq_mem data p.1 p.2).1 hp).2
    have := hb p.1
    simp only [Function.comp_apply]
    rw [h]
    exact wrap32_of_range _ (by omega) (by omega)
  rw [h1, (((dedup_perm_keys data).map _).sum_eq).symm, ← cast_sum_map,
    List.sum_map_count_dedup_eq_length]

theorem countFreq_nonneg (data : List Char) (hb : ∀ c, data.count c < 2147483648) :
    ∀ p ∈ countFreq data, 0 ≤ p.2 := by
  intro p hp
  have h := ((countFreq_mem data p.1 p.2).1 hp).2
  have := hb p.1
  rw [h, wrap32_of_range _ (by omega) (by omega)]
  omega

theorem aggregate_step (tbl : List (Char × Int)) (hnn : ∀ p ∈ tbl, 0 ≤ p.2)
    (hsum : (tbl.map Prod.snd).sum < 2147483648) (heap : List HuffmanNode) (l r : HuffmanNode)
    (rest : List HuffmanNode)
    (hinv : FreqInv tbl heap ∧ ∀ t ∈ heap, aggregate t = true)
    (hperm : heap.Perm (l :: r :: rest)) :
    FreqInv tbl (rest ++ [mkMerged l r]) ∧ ∀ t ∈ rest ++ [mkMerged l r], aggregate t = true := by
  obtain ⟨hF, hagg⟩ := hinv
  obtain ⟨hF2, _⟩ := freqInv_step tbl hnn hsum heap l r rest hF hperm
  refine ⟨hF2, ?_⟩
  have hlmem : l ∈ heap := hperm.symm.subset (by simp)
  have hrmem : r ∈ heap := hperm.symm.subset (by simp)
  intro t ht
  rcases List.mem_append.1 ht with ht | ht
  · exact hagg t (hperm.symm.subset (by simp [ht]))
  · simp only [List.mem_singleton] at ht
    subst ht
    have hf := hF2.2 (mkMerged l r) (by simp)
    have e : (mkMerged l r).freq = wrap32 (l.freq + r.freq) := rfl
    rw [e] at hf
    have hm : mkMerged l r = .node (Char.ofNat 0) (wrap32 (l.freq + r.freq)) l r := rfl
    rw [hm] at hf ⊢
    simp only [aggregate, hagg l hlmem, hagg r hrmem, Bool.and_true, decide_eq_true_eq]
    exact hf

/-- Every frequency the program stores is a 32-bit `int`: the root of the
built tree holds a number from `-2^31` up to `2^31 - 1`. -/
theorem root_freq_range (pick : TieBreak) (data : List Char) (tbl : List (Char × Int))
    (hne : data ≠ []) (hperm : tbl.Perm (countFreq data)) :
    ∃ root, buildTree pick tbl = .ok root ∧ -2147483648 ≤ root.freq ∧
      root.freq < 2147483648 := by
  obtain ⟨root, hbuild, hP⟩ := buildTree_induct pick
    (fun heap => ∀ t ∈ heap, -2147483648 ≤ t.freq ∧ t.freq < 2147483648)
    (by
      intro heap l r rest hP hp _ _ t ht
      rcases List.mem_append.1 ht with ht | ht
      · exact hP t (hp.symm.subset (by simp [ht]))
      · simp only [List.mem_singleton] at ht
        subst ht
        exact wrap32_range _)
    tbl (table_ne_nil data tbl hne hperm)
    (by
      intro t ht
      obtain ⟨p, hp, rfl⟩ := List.mem_map.1 ht
      have h := ((countFreq_mem data p.1 p.2).1 (hperm.subset hp)).2
      have e : (mkLeaf p.1 p.2).freq = p.2 := rfl
      rw [e, h]
      exact wrap32_range _)
  exact ⟨root, hbuild, hP root (by simp)⟩

/-- C14 (aggregate frequency) fails when an `int` overflows: for the text of
2000000000 characters `a` followed by 2000000000 characters `b` no tree the
run builds has a root frequency equal to the length of the text, 4000000000;
on the table of that text the root of the built tree holds `-294967296` and
not the sum of its two leaves. -/
theorem C14_overflow_root_freq :
    (¬ ∃ root,
      buildTree (fun _ => 0)
        (countFreq (List.replicate 2000000000 'a' ++ List.replicate 2000000000 'b'))
        = .ok root ∧ aggregate root = true ∧
      root.freq = ((List.replicate 2000000000 'a' ++ List.replicate 2000000000 'b').length
        : Int)) ∧
    buildTree (fun _ => 0) [('a', 2000000000), ('b', 2000000000)]
      = .ok (.node (Char.ofNat 0) (-294967296) (mkLeaf 'a' 2000000000)
          (mkLeaf 'b' 2000000000)) ∧
    aggregate (.node (Char.ofNat 0) (-294967296) (mkLeaf 'a' 2000000000)
      (mkLeaf 'b' 2000000000)) = false := by
  refine ⟨?_, by decide, by decide⟩
  rintro ⟨root, hb, _, hf⟩
  have hlen : (List.replicate 2000000000 'a' ++ List.replicate 2000000000 'b').length
      = 4000000000 := by
    rw [List.length_append, List.length_replicate, List.length_replicate]
  have hne : List.replicate 2000000000 'a' ++ List.replicate 2000000000 'b' ≠ [] := by
    intro h
    rw [h] at hlen
    exact absurd hlen (by decide)
  obtain ⟨root2, hb2, _, hlt⟩ := root_freq_range (fun _ => 0) _ _ hne (List.Perm.refl _)
  rw [hb] at hb2
  simp only [Except.ok.injEq] at hb2
  subst hb2
  rw [hf, hlen] at hlt
  exact absurd hlt (by decide)

/-- C14 (aggregate frequency) as amended: for every non-empty input of fewer
than `2^31` characters, the frequency of every node of the built tree is the
sum of the frequencies of the leaves below it, and the root's frequency is
the length of the input. -/
theorem C14_aggregate (pick : TieBreak) (data : List Char) (tbl : List (Char × Int))
    (hne : data ≠ []) (hlen : data.length < 2147483648) (hperm : tbl.Perm (countFreq data)) :
    ∃ root, buildTree pick tbl = .ok root ∧ aggregate root = true ∧
      root.freq = (data.length : Int) := by
  have hb : ∀ c, data.count c < 2147483648 :=
    fun c => lt_of_le_of_lt (List.count_le_length c data) hlen
  have hnn : ∀ p ∈ tbl, 0 ≤ p.2 := fun p hp => countFreq_nonneg data hb p (hperm.subset hp)
  have hsum : (tbl.map Prod.snd).sum < 2147483648 := by
    rw [(hperm.map Prod.snd).sum_eq, countFreq_sum data hb]
    omega
  have hne2 := table_ne_nil data tbl hne hperm
  obtain ⟨root, hbuild, hinv, hagg⟩ := buildTree_induct pick
    (fun heap => FreqInv tbl heap ∧ ∀ t ∈ heap, aggregate t = true)
    (fun heap l r rest hP hp _ _ => aggregate_step tbl hnn hsum heap l r rest hP hp)
    tbl hne2
    (by
      refine ⟨freqInv_init tbl, ?_⟩
      intro t ht
      obtain ⟨p, _, rfl⟩ := List.mem_map.1 ht
      simp [mkLeaf, aggregate, leafSum, leaves])
  refine ⟨root, hbuild, hagg root (by simp), ?_⟩
  have hl : (leaves root).Perm tbl := by simpa using hinv.1.1
  rw [hinv.2 root (by simp), leafSum, ((hl.trans hperm).map Prod.snd).sum_eq,
    countFreq_sum data hb]

theorem C14_aggregate_witness :
    ['a', 'b', 'a', 'c'] ≠ [] ∧ (['a', 'b', 'a', 'c'] : List Char).length < 2147483648 ∧
    (countFreq ['a', 'b', 'a', 'c']).Perm (countFreq ['a', 'b', 'a', 'c']) ∧
    ∃ root, buildTree (fun _ => 0) (countFreq ['a', 'b', 'a', 'c']) = .ok root ∧
      aggregate root = true ∧
      root.freq = ((['a', 'b', 'a', 'c'] : List Char).length : Int) :=
  ⟨by decide, by decide, List.Perm.refl _,
    C14_aggregate (fun _ => 0) ['a', 'b', 'a', 'c'] _ (by decide) (by decide)
      (List.Perm.refl _)⟩

/-! ## The merge loop: order of removal, number of iterations -/

/-- One iteration of the merge loop in detail: the first node taken out is
`left`, the second is `right`, both are least among what the queue held, and
the node put back has them as left and right child. -/
theorem mergeStep_detail (pick : TieBreak) (heap : List HuffmanNode) (hlen : 2 ≤ heap.length) :
    ∃ left right rest, top pick heap = .ok left ∧ top pick (pop pick heap) = .ok right ∧
      pop pick (pop pick heap) = rest ∧ heap.Perm (left :: right :: rest) ∧
      left.freq ≤ right.freq ∧ (∀ y ∈ rest, left.freq ≤ y.freq ∧ right.freq ≤ y.freq) ∧
      mergeStep pick heap
        = .ok (push rest (.node (Char.ofNat 0) (wrap32 (left.freq + right.freq)) left right)) := by
  have hne : heap ≠ [] := by
    intro h; rw [h] at hlen; simp at hlen
  obtain ⟨l, hl⟩ := top_exists pick heap hne
  obtain ⟨hlmem, hlmin⟩ := top_mem pick heap l hl
  have hp1 : heap.Perm (l :: heap.erase l) := List.perm_cons_erase hlmem
  have hpop1 := pop_eq pick heap l hl
  have hne1 : heap.erase l ≠ [] := by
    intro h
    have := hp1.length_eq
    rw [h] at this
    simp at this
    omega
  obtain ⟨r, hr⟩ := top_exists pick (heap.erase l) hne1
  obtain ⟨hrmem, hrmin⟩ := top_mem pick (heap.erase l) r hr
  have hp2 : (heap.erase l).Perm (r :: (heap.erase l).erase r) := List.perm_cons_erase hrmem
  have hpop2 := pop_eq pick (heap.erase l) r hr
  refine ⟨l, r, (heap.erase l).erase r, hl, ?_, ?_, ?_, ?_, ?_, ?_⟩
  · rw [hpop1, hr]
  · rw [hpop1, hpop2]
  · exact hp1.trans (List.Perm.cons l hp2)
  · exact hlmin r (List.mem_of_mem_erase hrmem)
  · intro y hy
    have hy1 : y ∈ heap.erase l := List.mem_of_mem_erase hy
    exact ⟨hlmin y (List.mem_of_mem_erase hy1), hrmin y hy1⟩
  · simp [mergeStep, hl, hpop1, hr, hpop2, mkMerged]

theorem childOrder_step (tbl : List (Char × Int)) (heap : List HuffmanNode) (l r : HuffmanNode)
    (rest : List HuffmanNode)
    (hinv : HeapInv tbl heap ∧ ∀ t ∈ heap, childOrder t = true)
    (hperm : heap.Perm (l :: r :: rest)) (hl : ∀ y ∈ r :: rest, l.freq ≤ y.freq) :
    HeapInv tbl (rest ++ [mkMerged l r]) ∧
      ∀ t ∈ rest ++ [mkMerged l r], childOrder t = true := by
  obtain ⟨hH, hord⟩ := hinv
  refine ⟨heapInv_step tbl heap l r rest hH hperm, ?_⟩
  have hlmem : l ∈ heap := hperm.symm.subset (by simp)
  have hrmem : r ∈ heap := hperm.symm.subset (by simp)
  intro t ht
  rcases List.mem_append.1 ht with ht | ht
  · exact hord t (hperm.symm.subset (by simp [ht]))
  · simp only [List.mem_singleton] at ht
    subst ht
    have hle : l.freq ≤ r.freq := hl r (by simp)
    simp [mkMerged, childOrder, hle, hord l hlmem, hord r hrmem]

/-- C15 (min-first merge): in every iteration of the merge loop (a queue of
two or more nodes) the first node removed and the second node removed have
frequencies at most those of every node left in the queue, the first is at
most the second, the first becomes the left child and the second the right
child of the node put back; so in every internal node of the built tree the
left child's frequency is at most the right child's. -/
theorem C15_min_first_merge (pick : TieBreak) (tbl : List (Char × Int)) (hne : tbl ≠ []) :
    (∀ heap : List HuffmanNode, 2 ≤ heap.length →
      ∃ left right rest, top pick heap = .ok left ∧ top pick (pop pick heap) = .ok right ∧
        pop pick (pop pick heap) = rest ∧ heap.Perm (left :: right :: rest) ∧
        left.freq ≤ right.freq ∧ (∀ y ∈ rest, left.freq ≤ y.freq ∧ right.freq ≤ y.freq) ∧
        mergeStep pick heap
          = .ok (push rest (.node (Char.ofNat 0) (wrap32 (left.freq + right.freq)) left right))) ∧
    ∃ root, buildTree pick tbl = .ok root ∧ childOrder root = true := by
  refine ⟨mergeStep_detail pick, ?_⟩
  obtain ⟨root, hbuild, _, hord⟩ := buildTree_induct pick
    (fun heap => HeapInv tbl heap ∧ ∀ t ∈ heap, childOrder t = true)
    (fun heap l r rest hP hp hl _ => childOrder_step tbl heap l r rest hP hp hl)
    tbl hne
    (by
      refine ⟨heapInv_init tbl, ?_⟩
      intro t ht
      obtain ⟨p, _, rfl⟩ := List.mem_map.1 ht
      simp [mkLeaf, childOrder])
  exact ⟨root, hbuild, hord root (by simp)⟩

theorem C15_min_first_merge_witness :
    [('a', 4), ('b', 2), ('c', 1), ('d', 1)] ≠ [] ∧
    ((∀ heap : List HuffmanNode, 2 ≤ heap.length →
      ∃ left right rest, top (fun _ => 0) heap = .ok left ∧
        top (fun _ => 0) (pop (fun _ => 0) heap) = .ok right ∧
        pop (fun _ => 0) (pop (fun _ => 0) heap) = rest ∧ heap.Perm (left :: right :: rest) ∧
        left.freq ≤ right.freq ∧ (∀ y ∈ rest, left.freq ≤ y.freq ∧ right.freq ≤ y.freq) ∧
        mergeStep (fun _ => 0) heap
          = .ok (push rest (.node (Char.ofNat 0) (wrap32 (left.freq + right.freq)) left right))) ∧
    ∃ root, buildTree (fun _ => 0) [('a', 4), ('b', 2), ('c', 1), ('d', 1)] = .ok root ∧
      childOrder root = true) :=
  ⟨by decide, C15_min_first_merge (fun _ => 0) [('a', 4), ('b', 2), ('c', 1), ('d', 1)]
    (by decide)⟩

/-- The counting loop computes the queue that `mergeLoop` computes. -/
theorem mergeLoopCount_fst (pick : TieBreak) (fuel : Nat) :
    ∀ (heap : List HuffmanNode) (n : Nat),
      mergeLoop pick fuel heap = (mergeLoopCount pick fuel heap n).map Prod.fst := by
  induction fuel with
  | zero =>
    intro heap n
    by_cases hl : heap.length > 1 <;> simp [mergeLoop, mergeLoopCount, hl, Except.map]
  | succ k ih =>
    intro heap n
    by_cases hl : heap.length > 1
    · simp only [mergeLoop, mergeLoopCount, hl, if_true]
      cases hm : mergeStep pick heap with
      | error e => simp [Except.map]
      | ok heap1 => exact ih heap1 (n + 1)
    · simp [mergeLoop, mergeLoopCount, hl, Except.map]

theorem mergeStep_length (pick : TieBreak) (heap : List HuffmanNode) (hlen : 2 ≤ heap.length) :
    ∃ heap1, mergeStep pick heap = .ok heap1 ∧ heap1.length + 1 = heap.length := by
  obtain ⟨l, r, rest, hms, hperm, _, _⟩ := mergeStep_spec pick heap hlen
  refine ⟨_, hms, ?_⟩
  have := hperm.length_eq
  simp at this ⊢
  omega

/-- From a non-empty queue the loop makes one iteration less than there are
nodes and ends with a single node. -/
theorem mergeLoopCount_spec (pick : TieBreak) (fuel : Nat) :
    ∀ (heap : List HuffmanNode) (n : Nat), heap ≠ [] → heap.length ≤ fuel + 1 →
      ∃ root, mergeLoopCount pick fuel heap n = .ok ([root], n + (heap.length - 1)) := by
  induction fuel with
  | zero =>
    intro heap n hne hlen
    match heap, hne, hlen with
    | [x], _, _ => exact ⟨x, by simp [mergeLoopCount]⟩
    | _ :: _ :: _, _, hlen => simp at hlen
  | succ k ih =>
    intro heap n hne hlen
    by_cases hl : heap.length > 1
    · obtain ⟨heap1, hms, hlen1⟩ := mergeStep_length pick heap hl
      have hne1 : heap1 ≠ [] := by
        intro h
        rw [h] at hlen1
        simp at hlen1
        omega
      obtain ⟨root, hroot⟩ := ih heap1 (n + 1) hne1 (by omega)
      refine ⟨root, ?_⟩
      simp only [mergeLoopCount, hl, if_true, hms, hroot]
      have : n + 1 + (heap1.length - 1) = n + (heap.length - 1) := by omega
      rw [this]
    · match heap, hne, hl with
      | [x], _, _ => exact ⟨x, by simp [mergeLoopCount]⟩
      | _ :: _ :: _, _, hl => simp at hl

theorem internalCount_strict (t : HuffmanNode) (hs : t.strict = true) :
    internalCount t + 1 = (leaves t).length := by
  induction t with
  | null => simp [HuffmanNode.strict] at hs
  | node ch f l r ihl ihr =>
    by_cases hleaf : l = .null ∧ r = .null
    · obtain ⟨rfl, rfl⟩ := hleaf
      simp [internalCount, leaves]
    · obtain ⟨hsl, hsr⟩ := strict_children ch f l r hs hleaf
      have h1 := ihl hsl
      have h2 := ihr hsr
      simp only [internalCount, leaves, hleaf, if_false, List.nil_append, List.length_append]
      omega

/-- C16 (termination): for every frequency table with `k >= 1` entries the
merge loop ends after exactly `k - 1` iterations with one node in the queue,
every iteration makes the queue one node shorter, and the tree returned has
`k` leaves and `k - 1` internal nodes. -/
theorem C16_termination (pick : TieBreak) (tbl : List (Char × Int)) (hk : 1 ≤ tbl.length) :
    (∀ heap : List HuffmanNode, 2 ≤ heap.length →
      ∃ heap1, mergeStep pick heap = .ok heap1 ∧ heap1.length + 1 = heap.length) ∧
    ∃ root, (initHeap tbl).length = tbl.length ∧
      mergeLoopCount pick (initHeap tbl).length (initHeap tbl) 0 = .ok ([root], tbl.length - 1) ∧
      mergeLoop pick (initHeap tbl).length (initHeap tbl) = .ok [root] ∧
      buildTree pick tbl = .ok root ∧
      (leaves root).length = tbl.length ∧ internalCount root = tbl.length - 1 := by
  refine ⟨mergeStep_length pick, ?_⟩
  have hne : tbl ≠ [] := by
    intro h
    rw [h] at hk
    simp at hk
  have hlen : (initHeap tbl).length = tbl.length := by
    rw [initHeap_eq, List.length_map]
  have hne2 : initHeap tbl ≠ [] := by
    intro h
    rw [h] at hlen
    simp at hlen
    omega
  obtain ⟨root, hcount⟩ :=
    mergeLoopCount_spec pick (initHeap tbl).length (initHeap tbl) 0 hne2 (by omega)
  have hloop : mergeLoop pick (initHeap tbl).length (initHeap tbl) = .ok [root] := by
    rw [mergeLoopCount_fst pick _ _ 0, hcount]
    rfl
  have hbuild : buildTree pick tbl = .ok root := by
    simp [buildTree, hloop, top_singleton]
  obtain ⟨root2, hbuild2, hl, hs⟩ := buildTree_shape pick tbl hne
  rw [hbuild] at hbuild2
  simp only [Except.ok.injEq] at hbuild2
  subst hbuild2
  have hic := internalCount_strict root hs
  refine ⟨root, hlen, ?_, hloop, hbuild, hl.length_eq, ?_⟩
  · rw [hcount, hlen]
    simp
  · rw [hl.length_eq] at hic
    omega

theorem C16_termination_witness :
    1 ≤ [('a', 4), ('b', 2), ('c', 1), ('d', 1)].length ∧
    ((∀ heap : List HuffmanNode, 2 ≤ heap.length →
      ∃ heap1, mergeStep (fun _ => 0) heap = .ok heap1 ∧ heap1.length + 1 = heap.length) ∧
    ∃ root, (initHeap [('a', 4), ('b', 2), ('c', 1), ('d', 1)]).length
        = [('a', 4), ('b', 2), ('c', 1), ('d', 1)].length ∧
      mergeLoopCount (fun _ => 0) (initHeap [('a', 4), ('b', 2), ('c', 1), ('d', 1)]).length
        (initHeap [('a', 4), ('b', 2), ('c', 1), ('d', 1)]) 0
        = .ok ([root], [('a', 4), ('b', 2), ('c', 1), ('d', 1)].length - 1) ∧
      mergeLoop (fun _ => 0) (initHeap [('a', 4), ('b', 2), ('c', 1), ('d', 1)]).length
        (initHeap [('a', 4), ('b', 2), ('c', 1), ('d', 1)]) = .ok [root] ∧
      buildTree (fun _ => 0) [('a', 4), ('b', 2), ('c', 1), ('d', 1)] = .ok root ∧
      (leaves root).length = [('a', 4), ('b', 2), ('c', 1), ('d', 1)].length ∧
      internalCount root = [('a', 4), ('b', 2), ('c', 1), ('d', 1)].length - 1) :=
  ⟨by decide, C16_termination (fun _ => 0) [('a', 4), ('b', 2), ('c', 1), ('d', 1)] (by decide)⟩

/-! ## Round trip over an arbitrary strict tree -/

/-- Over a strict tree that is not a single leaf, every text made of leaf
symbols is encoded and decoded back to itself (the symbols on the leaves
need not be distinct for this). -/
theorem roundTrip_strict (root : HuffmanNode) (hs : root.strict = true)
    (hnl : root.isLeaf = false) (data : List Char)
    (hdata : ∀ ch ∈ data, ch ∈ (leaves root).map Prod.fst) :
    ∃ enc, encode data (generateCodes root [] []) = .ok enc ∧ decode enc root = .ok data := by
  have hcov : ∀ ch ∈ data, mapFind (generateCodes root [] []) ch ≠ none := by
    intro ch hch
    obtain ⟨x, hx⟩ := generateCodes_find_some root ch
      (by rw [leafPaths_keys]; exact hdata ch hch)
    rw [hx]
    simp
  obtain ⟨henc, hdec⟩ := decode_encode_inner root hs hnl data hcov
  exact ⟨_, henc, hdec⟩

/-- C17 (round trip over any strict tree): for every tree in which every node
has no child or two children, with two or more leaves carrying pairwise
distinct symbols, and every string `S` made of leaf symbols, `encode` with the
table of `generateCodes(root, "", codes)` succeeds and `decode` of the result
returns `S`. -/
theorem C17_round_trip_strict_tree (root : HuffmanNode) (S : List Char)
    (hs : root.strict = true) (h2 : 2 ≤ (leaves root).length)
    (_hnd : ((leaves root).map Prod.fst).Nodup)
    (hS : ∀ ch ∈ S, ch ∈ (leaves root).map Prod.fst) :
    ∃ enc, encode S (generateCodes root [] []) = .ok enc ∧ decode enc root = .ok S :=
  roundTrip_strict root hs (isLeaf_false_of_two root h2) S hS

theorem C17_round_trip_strict_tree_witness :
    (mkMerged (mkLeaf 'x' 1) (mkMerged (mkLeaf 'y' 1) (mkLeaf 'z' 1))).strict = true ∧
    2 ≤ (leaves (mkMerged (mkLeaf 'x' 1) (mkMerged (mkLeaf 'y' 1) (mkLeaf 'z' 1)))).length ∧
    ((leaves (mkMerged (mkLeaf 'x' 1) (mkMerged (mkLeaf 'y' 1) (mkLeaf 'z' 1)))).map
      Prod.fst).Nodup ∧
    (∀ ch ∈ ['z', 'x', 'y', 'z'],
      ch ∈ (leaves (mkMerged (mkLeaf 'x' 1) (mkMerged (mkLeaf 'y' 1) (mkLeaf 'z' 1)))).map
        Prod.fst) ∧
    ∃ enc, encode ['z', 'x', 'y', 'z']
        (generateCodes (mkMerged (mkLeaf 'x' 1) (mkMerged (mkLeaf 'y' 1) (mkLeaf 'z' 1))) [] [])
        = .ok enc ∧
      decode enc (mkMerged (mkLeaf 'x' 1) (mkMerged (mkLeaf 'y' 1) (mkLeaf 'z' 1)))
        = .ok ['z', 'x', 'y', 'z'] :=
  ⟨by decide, by decide, by decide, by decide,
    C17_round_trip_strict_tree (mkMerged (mkLeaf 'x' 1) (mkMerged (mkLeaf 'y' 1) (mkLeaf 'z' 1)))
      ['z', 'x', 'y', 'z'] (by decide) (by decide) (by decide) (by decide)⟩

/-! ## Safety of `decode` -/

/-- After the bits `pre` the loop of `decode` goes on from the state that
`decodeState` gives. -/
theorem decodeLoop_append_state (root : HuffmanNode) (pre : List Char) :
    ∀ (rest : List Char) (cur : HuffmanNode) (acc : List Char) (cur2 : HuffmanNode)
      (acc2 : List Char), decodeState root pre cur acc = .ok (cur2, acc2) →
      decodeLoop root (pre ++ rest) cur acc = decodeLoop root rest cur2 acc2 := by
  induction pre with
  | nil =>
    intro rest cur acc cur2 acc2 h
    simp only [decodeState, Except.ok.injEq, Prod.mk.injEq] at h
    obtain ⟨rfl, rfl⟩ := h
    rfl
  | cons bit pre ih =>
    intro rest cur acc cur2 acc2 h
    cases cur with
    | null => simp [decodeState] at h
    | node ch f l r =>
      simp only [decodeState] at h
      simp only [List.cons_append, decodeLoop]
      cases hmove : (if bit = '0' then l else r) with
      | null => rw [hmove] at h; simp at h
      | node ch2 f2 l2 r2 =>
        rw [hmove] at h
        by_cases hleaf : l2 = .null ∧ r2 = .null
        · simp only [hleaf, and_self, if_true] at h ⊢
          exact ih rest root _ cur2 acc2 h
        · simp only [hleaf, if_false] at h ⊢
          exact ih rest _ acc cur2 acc2 h

/-- From an inner node of a strict tree the walk of `decode` never meets a
null pointer and always rests on an inner node. -/
theorem decodeState_inner (root : HuffmanNode) (hs : root.strict = true)
    (hnl : root.isLeaf = false) (enc : List Char) :
    ∀ (cur : HuffmanNode) (acc : List Char), cur.strict = true → cur.isLeaf = false →
      ∃ cur2 out, decodeState root enc cur acc = .ok (cur2, out) ∧ cur2.strict = true ∧
        cur2.isLeaf = false := by
  induction enc with
  | nil =>
    intro cur acc hcs hcl
    exact ⟨cur, acc, rfl, hcs, hcl⟩
  | cons bit enc ih =>
    intro cur acc hcs hcl
    cases cur with
    | null => simp [HuffmanNode.strict] at hcs
    | node ch f l r =>
      have hint : ¬ (l = .null ∧ r = .null) := by
        rintro ⟨rfl, rfl⟩
        simp [HuffmanNode.isLeaf] at hcl
      obtain ⟨hsl, hsr⟩ := strict_children ch f l r hcs hint
      have hnext : (if bit = '0' then l else r).strict = true := by
        split
        · exact hsl
        · exact hsr
      simp only [decodeState]
      cases hmove : (if bit = '0' then l else r) with
      | null =>
        rw [hmove] at hnext
        simp [HuffmanNode.strict] at hnext
      | node ch2 f2 l2 r2 =>
        rw [hmove] at hnext
        by_cases hleaf : l2 = .null ∧ r2 = .null
        · simp only [hleaf, and_self, if_true]
          exact ih root _ hs hnl
        · simp only [hleaf, if_false]
          have hnl2 : (HuffmanNode.node ch2 f2 l2 r2).isLeaf = false := by
            cases l2 <;> cases r2 <;> simp_all [HuffmanNode.isLeaf]
          exact ih _ acc hnext hnl2

theorem isLeaf_eq (t : HuffmanNode) (h : t.isLeaf = true) :
    ∃ ch f, t = .node ch f .null .null := by
  match t, h with
  | .node ch f .null .null, _ => exact ⟨ch, f, rfl⟩

/-- C18 (decoder safety): over a tree in which every node has no child or two
children and whose root is an internal node, for every input string the
current node is an internal node at the start of each loop iteration (after
any initial part `pre` of the input), so `decode` never follows a null
pointer and returns a string; a character other than `'0'` acts as `'1'`;
when the root is a leaf, `decode` of any non-empty string dereferences a null
pointer. -/
theorem C18_decoder_safety (root leafRoot : HuffmanNode) (hs : root.strict = true)
    (hnl : root.isLeaf = false) (hleaf : leafRoot.isLeaf = true) :
    (∀ pre rest : List Char, ∃ cur out, decodeState root pre root [] = .ok (cur, out) ∧
      cur.strict = true ∧ cur.isLeaf = false ∧
      decodeLoop root (pre ++ rest) root [] = decodeLoop root rest cur out) ∧
    (∀ encoded : List Char, ∃ out, decode encoded root = .ok out) ∧
    (∀ (bit : Char) (rest : List Char) (cur : HuffmanNode) (acc : List Char), bit ≠ '0' →
      decodeLoop root (bit :: rest) cur acc = decodeLoop root ('1' :: rest) cur acc) ∧
    (∀ encoded : List Char, encoded ≠ [] → decode encoded leafRoot = .error .nullDeref) := by
  refine ⟨?_, ?_, ?_, ?_⟩
  · intro pre rest
    obtain ⟨cur, out, hst, hcs, hcl⟩ := decodeState_inner root hs hnl pre root [] hs hnl
    exact ⟨cur, out, hst, hcs, hcl, decodeLoop_append_state root pre rest root [] cur out hst⟩
  · intro encoded
    obtain ⟨cur, out, hst, _, _⟩ := decodeState_inner root hs hnl encoded root [] hs hnl
    have := decodeLoop_append_state root encoded [] root [] cur out hst
    rw [List.append_nil] at this
    exact ⟨out, by rw [decode, this]; rfl⟩
  · intro bit rest cur acc hbit
    have h10 : ¬ ('1' = '0') := by decide
    cases cur with
    | null => rfl
    | node ch f l r => simp only [decodeLoop, hbit, h10, if_false]
  · intro encoded hne
    obtain ⟨ch, f, rfl⟩ := isLeaf_eq leafRoot hleaf
    cases encoded with
    | nil => exact absurd rfl hne
    | cons bit rest => simp [decode, decodeLoop]

theorem C18_decoder_safety_witness :
    (mkMerged (mkLeaf 'a' 1) (mkLeaf 'b' 1)).strict = true ∧
    (mkMerged (mkLeaf 'a' 1) (mkLeaf 'b' 1)).isLeaf = false ∧
    (mkLeaf 'a' 4).isLeaf = true ∧
    ((∀ pre rest : List Char, ∃ cur out,
      decodeState (mkMerged (mkLeaf 'a' 1) (mkLeaf 'b' 1)) pre
        (mkMerged (mkLeaf 'a' 1) (mkLeaf 'b' 1)) [] = .ok (cur, out) ∧
      cur.strict = true ∧ cur.isLeaf = false ∧
      decodeLoop (mkMerged (mkLeaf 'a' 1) (mkLeaf 'b' 1)) (pre ++ rest)
        (mkMerged (mkLeaf 'a' 1) (mkLeaf 'b' 1)) []
        = decodeLoop (mkMerged (mkLeaf 'a' 1) (mkLeaf 'b' 1)) rest cur out) ∧
    (∀ encoded : List Char, ∃ out,
      decode encoded (mkMerged (mkLeaf 'a' 1) (mkLeaf 'b' 1)) = .ok out) ∧
    (∀ (bit : Char) (rest : List Char) (cur : HuffmanNode) (acc : List Char), bit ≠ '0' →
      decodeLoop (mkMerged (mkLeaf 'a' 1) (mkLeaf 'b' 1)) (bit :: rest) cur acc
        = decodeLoop (mkMerged (mkLeaf 'a' 1) (mkLeaf 'b' 1)) ('1' :: rest) cur acc) ∧
    (∀ encoded : List Char, encoded ≠ [] →
      decode encoded (mkLeaf 'a' 4) = .error .nullDeref)) :=
  ⟨by decide, by decide, by decide,
    C18_decoder_safety (mkMerged (mkLeaf 'a' 1) (mkLeaf 'b' 1)) (mkLeaf 'a' 4)
      (by decide) (by decide) (by decide)⟩

/-! ## Kraft equality -/

theorem mapSet_new {β : Type} (m : List (Char × β)) (c : Char) (v : β)
    (hc : c ∉ m.map Prod.fst) : mapSet m c v = m ++ [(c, v)] := by
  induction m with
  | nil => rfl
  | cons p m ih =>
    obtain ⟨k, w⟩ := p
    simp only [List.map_cons, List.mem_cons, not_or] at hc
    have hk : ¬ k = c := fun h => hc.1 h.symm
    simp [mapSet, hk, ih hc.2]

theorem setAll_nodup (ps codes : List (Char × List Char))
    (hnd : ((codes ++ ps).map Prod.fst).Nodup) : setAll codes ps = codes ++ ps := by
  induction ps generalizing codes with
  | nil => simp [setAll]
  | cons p ps ih =>
    have hstep : setAll codes (p :: ps) = setAll (mapSet codes p.1 p.2) ps := rfl
    have hp : p.1 ∉ codes.map Prod.fst := by
      intro hin
      rw [List.map_append, List.nodup_append] at hnd
      exact hnd.2.2 hin (by simp)
    rw [hstep, mapSet_new codes p.1 p.2 hp, ih]
    · simp
    · simpa using hnd

theorem kraft_leafPaths (t : HuffmanNode) (hs : t.strict = true) (code : List Char) :
    kraftSum (leafPaths t code) = 1 / 2 ^ code.length := by
  induction t generalizing code with
  | null => simp [HuffmanNode.strict] at hs
  | node ch f l r ihl ihr =>
    by_cases hleaf : l = .null ∧ r = .null
    · obtain ⟨rfl, rfl⟩ := hleaf
      simp [kraftSum, leafPaths]
    · obtain ⟨hsl, hsr⟩ := strict_children ch f l r hs hleaf
      have h1 := ihl hsl (code ++ ['0'])
      have h2 := ihr hsr (code ++ ['1'])
      simp only [kraftSum] at h1 h2 ⊢
      simp only [leafPaths, hleaf, if_false, List.nil_append, List.map_append, List.sum_append,
        h1, h2, List.length_append, List.length_singleton]
      rw [pow_succ]
      field_simp
      ring

/-- The table generated from a strict tree with distinct leaf symbols is the
list of its leaf paths, and its Kraft sum is 1. -/
theorem kraft_strict (root : HuffmanNode) (hs : root.strict = true)
    (hnd : ((leaves root).map Prod.fst).Nodup) :
    generateCodes root [] [] = leafPaths root [] ∧ kraftSum (generateCodes root [] []) = 1 := by
  have hgen : generateCodes root [] [] = leafPaths root [] := by
    rw [generateCodes_eq, setAll_nodup]
    · simp
    · simpa [leafPaths_keys] using hnd
  refine ⟨hgen, ?_⟩
  rw [hgen, kraft_leafPaths root hs []]
  simp

/-- C19 (Kraft equality): for every input with two or more distinct symbols
the code table generated from the built tree is complete: the sum of
`2^(-length(code))`, over the entries of the table as over the distinct
symbols of the input, is exactly 1 as a rational number. -/
theorem C19_kraft_equality (pick : TieBreak) (data : List Char) (tbl : List (Char × Int))
    (a b : Char) (ha : a ∈ data) (_hb : b ∈ data) (_hab : a ≠ b)
    (hperm : tbl.Perm (countFreq data)) :
    ∃ root, buildTree pick tbl = .ok root ∧ kraftSum (generateCodes root [] []) = 1 ∧
      (data.dedup.map
        (fun c => (1 : ℚ) / 2 ^ (codeOf (generateCodes root [] []) c).length)).sum = 1 := by
  obtain ⟨root, hbuild, hl, hs⟩ :=
    buildTree_of_text pick data tbl (List.ne_nil_of_mem ha) hperm
  have hnd := leaves_keys_nodup root data hl
  obtain ⟨hgen, hk⟩ := kraft_strict root hs hnd
  refine ⟨root, hbuild, hk, ?_⟩
  have hnd2 : ((generateCodes root [] []).map Prod.fst).Nodup := by
    rw [hgen, leafPaths_keys]
    exact hnd
  have hp : data.dedup.Perm ((generateCodes root [] []).map Prod.fst) := by
    apply (List.perm_ext_iff_of_nodup (List.nodup_dedup data) hnd2).2
    intro c
    rw [List.mem_dedup, hgen, leafPaths_keys, leaves_keys_mem root data hl]
  have hsum : (data.dedup.map
      (fun c => (1 : ℚ) / 2 ^ (codeOf (generateCodes root [] []) c).length)).sum
      = kraftSum (generateCodes root [] []) := by
    rw [(hp.map _).sum_eq, List.map_map, kraftSum]
    congr 1
    apply List.map_congr_left
    intro p hpm
    have := mapFind_of_mem _ p.1 p.2 hnd2 hpm
    simp [codeOf, this]
  rw [hsum, hk]

theorem C19_kraft_equality_witness :
    'a' ∈ ['a', 'b', 'a', 'c'] ∧ 'b' ∈ ['a', 'b', 'a', 'c'] ∧ 'a' ≠ 'b' ∧
    (countFreq ['a', 'b', 'a', 'c']).Perm (countFreq ['a', 'b', 'a', 'c']) ∧
    ∃ root, buildTree (fun _ => 0) (countFreq ['a', 'b', 'a', 'c']) = .ok root ∧
      kraftSum (generateCodes root [] []) = 1 ∧
      ((['a', 'b', 'a', 'c'] : List Char).dedup.map
        (fun c => (1 : ℚ) / 2 ^ (codeOf (generateCodes root [] []) c).length)).sum = 1 :=
  ⟨by decide, by decide, by decide, List.Perm.refl _,
    C19_kraft_equality (fun _ => 0) ['a', 'b', 'a', 'c'] _ 'a' 'b' (by decide) (by decide)
      (by decide) (List.Perm.refl _)⟩

end Huffman
